import Mathlib

/-!
Verification of the `mcplocal` crawler/auditor core against its specification.

The development shallowly embeds the TypeScript sources:
  * `packages/core/src/utils/url.ts`   (URL canonicalizer)
  * `packages/core/src/crawler/crawl.ts` (redirect fetcher + crawl engine)
  * `packages/core/src/audit/indexability.ts` (indexability auditor)

Network effects are modelled by an explicit `Net` function from (url, ua)
to an optional response (`none` models a thrown fetch error); HTML documents
are modelled at the level cheerio extracts them (anchors, metas, links);
strings are ASCII-level (percent-decoding, UTF-16 surrogate order and
IDNA host processing performed by the JS `URL` class are outside the model,
and no input below exercises them).
-/

namespace MCrawl

/-- Lowercase a character, ASCII range only (models `String.prototype.toLowerCase`
on the ASCII inputs used throughout). -/
def lowerC (c : Char) : Char :=
  if 65 ≤ c.toNat ∧ c.toNat ≤ 90 then Char.ofNat (c.toNat + 32) else c

/-- Lowercase a character list. -/
def lowerL (l : List Char) : List Char := l.map lowerC

/-- Split a character list at every occurrence of the delimiter `d`
(models `String.prototype.split` with a single-character separator). -/
def splitOnChar (d : Char) : List Char → List (List Char)
  | [] => [[]]
  | c :: rest =>
    if c = d then [] :: splitOnChar d rest
    else
      match splitOnChar d rest with
      | [] => [[c]]
      | s :: ss => (c :: s) :: ss

/-- Join character lists with the delimiter `d` (models `Array.prototype.join`). -/
def joinChar (d : Char) : List (List Char) → List Char
  | [] => []
  | [s] => s
  | s :: rest => s ++ d :: joinChar d rest

theorem splitOnChar_ne_nil (d : Char) (l : List Char) : splitOnChar d l ≠ [] := by
  cases l with
  | nil => simp [splitOnChar]
  | cons c rest =>
    simp only [splitOnChar]
    by_cases h : c = d
    · simp [h]
    · simp only [h, if_false]
      cases splitOnChar d rest <;> simp

theorem splitOnChar_no_delim {d : Char} {l : List Char}
    (h : ∀ c ∈ l, c ≠ d) : splitOnChar d l = [l] := by
  induction l with
  | nil => rfl
  | cons c rest ih =>
    have hc : c ≠ d := h c (List.mem_cons_self c rest)
    have hrest : splitOnChar d rest = [rest] := ih (fun x hx => h x (List.mem_cons_of_mem c hx))
    simp [splitOnChar, hc, hrest]

/-- Split a character list at the first character satisfying `p`. -/
def breakAt (p : Char → Bool) (l : List Char) : List Char × List Char :=
  (l.takeWhile (fun c => ! p c), l.dropWhile (fun c => ! p c))

structure UrlRec where
  scheme : List Char
  host : List Char
  segs : List (List Char)
  query : List (List Char × List Char)
  frag : Option (List Char)
deriving DecidableEq, Repr

/-- Characters legal in a URL scheme. -/
def isSchemeChar (c : Char) : Bool :=
  c.isAlpha || c.isDigit || c == '+' || c == '-' || c == '.'

/-- Characters ending the authority part. -/
def isHostDelim (c : Char) : Bool := c == '/' || c == '?' || c == '#'

/-- Characters ending the path part. -/
def isPathDelim (c : Char) : Bool := c == '?' || c == '#'

/-- Checks that the first character is alphabetic (the WHATWG scheme rule). -/
def headAlpha : List Char → Bool
  | c :: _ => c.isAlpha
  | [] => false

/-- Keep the characters after a leading `=`, discarding anything else. -/
def valueAfterEq : List Char → List Char
  | '=' :: v => v
  | _ => []

/-- Parse one `key=value` chunk of a query string. -/
def parsePair (chunk : List Char) : List Char × List Char :=
  ((breakAt (fun c => c == '=') chunk).1,
    valueAfterEq (breakAt (fun c => c == '=') chunk).2)

/-- Parse a query string (models `URLSearchParams` construction: split on
`&`, drop empty chunks, split each chunk at the first `=`). -/
def parseQuery (qcs : List Char) : List (List Char × List Char) :=
  ((splitOnChar '&' qcs).filter (fun c => !c.isEmpty)).map parsePair

/-- Attach a parsed query and fragment split to the record under
construction. -/
def parseQF (scheme host : List Char) (segs : List (List Char)) :
    List Char × List Char → UrlRec
  | (qCs, '#' :: f) => ⟨scheme, host, segs, parseQuery qCs, some f⟩
  | (qCs, _) => ⟨scheme, host, segs, parseQuery qCs, none⟩

/-- Parse the query/fragment tail of a URL. -/
def parsePathTail (scheme host : List Char) (segs : List (List Char)) :
    List Char → UrlRec
  | '?' :: qcs => parseQF scheme host segs (breakAt (fun c => c == '#') qcs)
  | '#' :: f => ⟨scheme, host, segs, [], some f⟩
  | _ => ⟨scheme, host, segs, [], none⟩

/-- Split the raw path characters into slash segments and continue. -/
def parsePath (scheme host : List Char) (pr : List Char × List Char) : UrlRec :=
  parsePathTail scheme host
    (if pr.1.isEmpty then [] else splitOnChar '/' pr.1) pr.2

/-- Parse everything following the authority. -/
def parseTail (scheme host : List Char) : List Char → UrlRec
  | '/' :: pcs => parsePath scheme host (breakAt isPathDelim pcs)
  | r => parsePathTail scheme host [] r

/-- Check the host part and continue past the authority. -/
def parseAuthority (scheme : List Char) (pr : List Char × List Char) : Option UrlRec :=
  if pr.1.isEmpty then none
  else some (parseTail scheme (lowerL pr.1) pr.2)

/-- Validate the scheme, require the `://` separator, and continue. -/
def parseAfterColon : List Char × List Char → Option UrlRec
  | (schemeCs, ':' :: '/' :: '/' :: rest2) =>
    if !schemeCs.isEmpty && schemeCs.all isSchemeChar && headAlpha schemeCs then
      parseAuthority (lowerL schemeCs) (breakAt isHostDelim rest2)
    else none
  | _ => none

/-- Parse a URL string (models `new URL(s)` for hierarchical
`scheme://host...` URLs; anything else is rejected, modelling the
constructor throwing). -/
def parseUrl (cs : List Char) : Option UrlRec :=
  parseAfterColon (breakAt (fun c => c == ':') cs)

/-- Serialize a query pair list. -/
def serializeQuery (q : List (List Char × List Char)) : List Char :=
  joinChar '&' (q.map (fun p => p.1 ++ '=' :: p.2))

/-- Serialize a URL record (models `URL.prototype.toString`: the path always
starts with a slash, an empty path prints as `/`, the query is prefixed by
`?` only when nonempty). -/
def serializeUrl (r : UrlRec) : List Char :=
  r.scheme ++ ':' :: '/' :: '/' :: r.host
    ++ '/' :: joinChar '/' r.segs
    ++ (if r.query.isEmpty then [] else '?' :: serializeQuery r.query)
    ++ (match r.frag with | none => [] | some f => '#' :: f)

/-- Tracking query parameters removed by the canonical key, from
`utils/url.ts` `TRACKING_PARAMS`. -/
def TRACKING : List (List Char) :=
  ["utm_source".data, "utm_medium".data, "utm_campaign".data, "utm_term".data,
   "utm_content".data, "gclid".data, "fbclid".data, "igshid".data,
   "mc_cid".data, "mc_eid".data]

/-- Matches the `normalize-url` default directory-index pattern
`/^index\.[a-z]+$/`. -/
def isDirIndexSeg (s : List Char) : Bool :=
  match s with
  | 'i' :: 'n' :: 'd' :: 'e' :: 'x' :: '.' :: rest =>
    !rest.isEmpty && rest.all (fun c => 97 ≤ c.toNat && c.toNat ≤ 122)
  | _ => false

/-- Collapse duplicate slashes in a path (the unconditional `normalize-url`
pathname rewrite `\/{2,} -> /`), expressed on slash-split segments: all
empty inner segments disappear, a trailing slash survives as one trailing
empty segment. -/
def collapseDupSegs (segs : List (List Char)) : List (List Char) :=
  (segs.filter (fun s => !s.isEmpty)) ++ (if segs.getLast? = some [] then [[]] else [])

/-- Hexadecimal digit test (ECMA-262 `decodeURI`). -/
def isHexDigit (c : Char) : Bool :=
  c.isDigit || ('a' ≤ c && c ≤ 'f') || ('A' ≤ c && c ≤ 'F')

/-- Value of a hexadecimal digit. -/
def hexVal (c : Char) : Nat :=
  if c.isDigit then c.toNat - 48
  else if 'a' ≤ c then c.toNat - 87
  else c.toNat - 55

/-- The escape sequences `decodeURI` leaves intact: the `uriReserved`
characters plus `#` (ECMA-262 `decodeURI`'s `preserveEscapeSet`). -/
def uriPreserved (c : Char) : Bool :=
  c == ';' || c == '/' || c == '?' || c == ':' || c == '@' || c == '&' ||
  c == '=' || c == '+' || c == '$' || c == ',' || c == '#'

/-- Two hex digits forming a UTF-8 continuation byte (`10xxxxxx`). -/
def isContByte (h1 h2 : Char) : Bool :=
  isHexDigit h1 && isHexDigit h2 &&
    decide (128 ≤ 16 * hexVal h1 + hexVal h2) &&
    decide (16 * hexVal h1 + hexVal h2 ≤ 191)

/-- Uppercase a hexadecimal digit (the URL percent-encoder emits uppercase
hex). -/
def upHex (c : Char) : Char :=
  if 'a' ≤ c && c ≤ 'f' then Char.ofNat (c.toNat - 32) else c

/-- ASCII bytes the WHATWG path percent-encode set re-encodes when a
decoded pathname is assigned back (`urlObject.pathname = decodeURI(...)`):
C0 controls, DEL, space, `"`, `<`, `>`, `` ` ``, `{`, `}`. -/
def pathEncodeByte (b : Nat) : Bool :=
  decide (b ≤ 31) || decide (b = 127) || decide (b = 32) || decide (b = 34) ||
  decide (b = 60) || decide (b = 62) || decide (b = 96) || decide (b = 123) ||
  decide (b = 125)

/-- Net effect on one two-byte UTF-8 escape run (`%XY` lead byte in
`[0xC2,0xDF]` followed by one continuation-byte escape): `decodeURI`
decodes it and the pathname setter re-encodes the non-ASCII character with
uppercase hex, so a valid run is kept with its hex digits uppercased and a
malformed one throws (`none`). -/
def dec2 (h1 h2 : Char) : List Char → Option (List Char × Nat)
  | p2 :: h3 :: h4 :: _ =>
    if (decide (p2 = '%') && isContByte h3 h4) = true then
      some (['%', upHex h1, upHex h2, '%', upHex h3, upHex h4], 3)
    else none
  | _ => none

/-- Net effect on one three-byte UTF-8 escape run, rejecting overlong
encodings (lead `0xE0` with second byte below `0xA0`) and surrogates (lead
`0xED` with second byte above `0x9F`): a valid run is kept uppercased. -/
def dec3 (h1 h2 : Char) : List Char → Option (List Char × Nat)
  | p2 :: h3 :: h4 :: p3 :: h5 :: h6 :: _ =>
    if (decide (p2 = '%') && isContByte h3 h4 && decide (p3 = '%') &&
        isContByte h5 h6) = true then
      if ((decide (16 * hexVal h1 + hexVal h2 = 224) &&
            decide (16 * hexVal h3 + hexVal h4 < 160)) ||
          (decide (16 * hexVal h1 + hexVal h2 = 237) &&
            decide (159 < 16 * hexVal h3 + hexVal h4))) = true
      then none
      else
        some (['%', upHex h1, upHex h2, '%', upHex h3, upHex h4,
          '%', upHex h5, upHex h6], 6)
    else none
  | _ => none

/-- Net effect on one four-byte UTF-8 escape run, rejecting overlong
encodings (lead `0xF0` with second byte below `0x90`) and code points
beyond `U+10FFFF` (lead `0xF4` with second byte above `0x8F`): a valid run
is kept uppercased. -/
def dec4 (h1 h2 : Char) : List Char → Option (List Char × Nat)
  | p2 :: h3 :: h4 :: p3 :: h5 :: h6 :: p4 :: h7 :: h8 :: _ =>
    if (decide (p2 = '%') && isContByte h3 h4 && decide (p3 = '%') &&
        isContByte h5 h6 && decide (p4 = '%') && isContByte h7 h8) = true then
      if ((decide (16 * hexVal h1 + hexVal h2 = 240) &&
            decide (16 * hexVal h3 + hexVal h4 < 144)) ||
          (decide (16 * hexVal h1 + hexVal h2 = 244) &&
            decide (143 < 16 * hexVal h3 + hexVal h4))) = true
      then none
      else
        some (['%', upHex h1, upHex h2, '%', upHex h3, upHex h4,
          '%', upHex h5, upHex h6, '%', upHex h7, upHex h8], 9)
    else none
  | _ => none

/-- Net effect of one escape run after a `%` whose two hex digits are
`h1 h2`, under `decodeURI` followed by the pathname re-assignment:
an escape of `decodeURI`'s preserve set is kept verbatim; another ASCII
escape decodes, but if the character is in the path percent-encode set the
setter re-encodes it (uppercasing the hex), so the escape survives
case-normalized; a UTF-8 lead byte consumes the matching continuation
escapes from `rest2` and the run survives case-normalized; anything else
is malformed and throws.  Returns the resulting chunk and how many
characters of `rest2` were consumed. -/
def decEscape (h1 h2 : Char) (rest2 : List Char) : Option (List Char × Nat) :=
  if (isHexDigit h1 && isHexDigit h2) = true then
    if 16 * hexVal h1 + hexVal h2 < 128 then
      some ((if uriPreserved (Char.ofNat (16 * hexVal h1 + hexVal h2))
        then ['%', h1, h2]
        else if pathEncodeByte (16 * hexVal h1 + hexVal h2)
        then ['%', upHex h1, upHex h2]
        else [Char.ofNat (16 * hexVal h1 + hexVal h2)]), 0)
    else if 194 ≤ 16 * hexVal h1 + hexVal h2 ∧ 16 * hexVal h1 + hexVal h2 ≤ 223
    then dec2 h1 h2 rest2
    else if 224 ≤ 16 * hexVal h1 + hexVal h2 ∧ 16 * hexVal h1 + hexVal h2 ≤ 239
    then dec3 h1 h2 rest2
    else if 240 ≤ 16 * hexVal h1 + hexVal h2 ∧ 16 * hexVal h1 + hexVal h2 ≤ 244
    then dec4 h1 h2 rest2
    else none
  else none

/-- One left-to-right pass of ECMA-262 `Decode` with `decodeURI`'s preserve
set, with explicit fuel (each step consumes at least one input character,
so fuel `length + 1` never runs out): literal characters pass through, each
`%` starts an escape run decoded by `decEscape`, and any malformed escape
makes the whole decode throw (`none`, which the
`try { decodeURI } catch {}` of `normalize-url` turns into a no-op). -/
def decodeCoreF : Nat → List Char → Option (List Char)
  | _, [] => some []
  | 0, _ :: _ => none
  | fuel + 1, c :: rest =>
    if c = '%' then
      match rest with
      | h1 :: h2 :: rest2 =>
        match decEscape h1 h2 rest2 with
        | none => none
        | some (chunk, n) =>
          match decodeCoreF fuel (rest2.drop n) with
          | none => none
          | some tail => some (chunk ++ tail)
      | _ => none
    else
      match decodeCoreF fuel rest with
      | none => none
      | some tail => some (c :: tail)

/-- ECMA-262 `Decode` for `decodeURI` on a character list. -/
def decodeCore (l : List Char) : Option (List Char) :=
  decodeCoreF (l.length + 1) l

/-- The `normalize-url` "Decode URI octets" step
(`urlObject.pathname = decodeURI(urlObject.pathname)` inside `try/catch`)
on slash-split segments: `decodeURI` never decodes or produces `/` (its
escape is preserved), so decoding the pathname is decoding each segment,
and one malformed escape anywhere makes the whole step a no-op. -/
def decodeSegs (segs : List (List Char)) : List (List Char) :=
  if segs.all (fun s => (decodeCore s).isSome) then
    segs.map (fun s => (decodeCore s).getD s)
  else segs

/-- Drop a final directory-index path segment, leaving a trailing slash
(`normalize-url` option `removeDirectoryIndex: true`).  The `['/']` default
is a non-matching sentinel for the empty path. -/
def removeDirIndex (segs : List (List Char)) : List (List Char) :=
  if isDirIndexSeg (segs.getLastD ['/']) then segs.dropLast ++ [[]] else segs

/-- Strip one trailing slash (`normalize-url` option
`removeTrailingSlash: true`). -/
def removeTrailingEmpty (segs : List (List Char)) : List (List Char) :=
  if segs.getLast? = some [] then segs.dropLast else segs

/-- Combined path normalization applied by `normalizeForKey`, in
`normalize-url`'s order: duplicate-slash collapse, URI-octet decode,
directory-index removal, trailing-slash removal. -/
def normSegs (segs : List (List Char)) : List (List Char) :=
  removeTrailingEmpty (removeDirIndex (decodeSegs (collapseDupSegs segs)))

/-- Byte-wise key order used to sort query parameters
(`URLSearchParams.prototype.sort`). -/
def leKey : List Char → List Char → Bool
  | [], _ => true
  | _ :: _, [] => false
  | a :: as, b :: bs =>
    if a.toNat < b.toNat then true
    else if b.toNat < a.toNat then false
    else leKey as bs

/-- Stable insertion of a pair into a key-sorted pair list. -/
def insPair (x : List Char × List Char) :
    List (List Char × List Char) → List (List Char × List Char)
  | [] => [x]
  | y :: ys => if leKey x.1 y.1 then x :: y :: ys else y :: insPair x ys

/-- Stable sort of query pairs by key. -/
def sortPairs : List (List Char × List Char) → List (List Char × List Char)
  | [] => []
  | x :: xs => insPair x (sortPairs xs)

/-- The regex word character class `\w` (`[A-Za-z0-9_]`). -/
def isWordChar (c : Char) : Bool := c.isAlpha || c.isDigit || c == '_'

/-- `normalize-url`'s default `removeQueryParameters: [/^utm_\w+/i]`
membership test: the key starts with `utm_` case-insensitively followed by
at least one word character. -/
def isUtmParam (k : List Char) : Bool :=
  match k with
  | c1 :: c2 :: c3 :: c4 :: c5 :: _ =>
    lowerC c1 == 'u' && lowerC c2 == 't' && lowerC c3 == 'm' && c4 == '_' &&
      isWordChar c5
  | _ => false

/-- Query normalization applied by `normalizeForKey`: strip tracking
parameters (`stripTrackingParams`), then the `normalize-url` default
`removeQueryParameters` filter (`/^utm_\w+/i`), then sort
(`sortQueryParameters: true`). -/
def normQuery (q : List (List Char × List Char)) : List (List Char × List Char) :=
  sortPairs ((q.filter (fun p => !(decide (p.1 ∈ TRACKING)))).filter
    (fun p => !(isUtmParam p.1)))

/-- Record-level normalization pipeline of `normalizeForKey`
(`utils/url.ts` lines 81-102): lower-case the host, drop the fragment,
strip tracking parameters, then the `normalize-url` steps with the options
of `NORMALIZE_OPTS` (duplicate-slash collapse, URI-octet decode,
directory-index removal, default `utm_*` query removal, query sorting,
trailing-slash removal; `www.` kept, scheme kept). -/
def normUrl (r : UrlRec) : UrlRec :=
  ⟨r.scheme, lowerL r.host, normSegs r.segs, normQuery r.query, none⟩

/-- Reparse the normalized URL string, lower-case the host once more and
serialize (`utils/url.ts` lines 98-101). -/
def normalizeSerialized (normalized : List Char) : String :=
  match parseUrl normalized with
  | none => String.mk normalized
  | some u2 => String.mk (serializeUrl { u2 with host := lowerL u2.host })

/-- Embedding of `normalizeForKey` (`utils/url.ts`): unparsable input is
returned unchanged; otherwise normalize, reparse the result and lower-case
its host once more, and serialize. -/
def normalizeForKey (s : String) : String :=
  match parseUrl s.data with
  | none => s
  | some u => normalizeSerialized (serializeUrl (normUrl u))

/-- Hostname of a record (`URL.prototype.hostname`): the authority up to a
port separator. -/
def hostnameOf (r : UrlRec) : List Char := r.host.takeWhile (fun c => !(c == ':'))

/-- Last two dot-separated labels of a hostname joined back with a dot
(`parts.slice(-2).join(".")`). -/
def lastTwoLabels (hostname : List Char) : List Char :=
  let parts := splitOnChar '.' hostname
  joinChar '.' (parts.drop (parts.length - 2))

/-- Embedding of `sameETLD1` (`utils/url.ts` lines 109-115): naive eTLD+1
comparison of the last two hostname labels. -/
def sameETLD1 (a b : UrlRec) : Bool :=
  lastTwoLabels (lowerL (hostnameOf a)) == lastTwoLabels (lowerL (hostnameOf b))

/-- Embedding of `isInternal` (`utils/url.ts` lines 117-121). -/
def isInternal (base target : UrlRec) (includeSubdomains : Bool) : Bool :=
  if !sameETLD1 base target then false
  else if !includeSubdomains then lowerL (hostnameOf base) == lowerL (hostnameOf target)
  else true

/-- Ends-with test on character lists. -/
def endsWithL (l suffix : List Char) : Bool := suffix.isSuffixOf l

/-- Pathname of a record as `URL.prototype.pathname` prints it. -/
def pathnameOf (r : UrlRec) : List Char := '/' :: joinChar '/' r.segs

/-- Suffix of a basename starting at its last dot, if any. -/
def extnameAux : List Char → Option (List Char)
  | [] => none
  | c :: rest =>
    match extnameAux rest with
    | some e => some e
    | none => if c = '.' then some (c :: rest) else none

/-- Extension of a basename: the suffix from its last dot ignoring a
leading dot (a dotfile with no other dot has no extension). -/
def extnameBase : List Char → List Char
  | [] => []
  | c :: rest =>
    if c = '.' then (extnameAux rest).getD []
    else (extnameAux (c :: rest)).getD []

/-- Embedding of Node `path.extname` on a POSIX pathname: the extension of
the final path segment; dotfiles, `.` and `..` have none. -/
def extnameOf (pathname : List Char) : List Char :=
  if (splitOnChar '/' pathname).getLastD [] = ['.', '.'] then []
  else extnameBase ((splitOnChar '/' pathname).getLastD [])

/-- Strip the leading dot of an extension (`ext.startsWith "." ?
ext.slice(1) : ext`). -/
def extWithoutDot (ext : List Char) : List Char :=
  if ext.take 1 = ['.'] then ext.drop 1 else ext

/-- Embedding of `hasIgnoredExtension` (`utils/url.ts` lines 131-154); the
list loaded from `assets/ignore-extensions.txt` is passed explicitly
(already trimmed and lower-cased, as the loader does). -/
def hasIgnoredExtension (ignoredExt : List (List Char)) (u : UrlRec) : Bool :=
  if (endsWithL (lowerL (pathnameOf u)) ".tar.gz".data
      || endsWithL (lowerL (pathnameOf u)) ".tar.bz2".data
      || endsWithL (lowerL (pathnameOf u)) ".tar.xz".data)
      && (decide ("tar.gz".data ∈ ignoredExt) || decide ("tar.bz2".data ∈ ignoredExt)
          || decide ("tar.xz".data ∈ ignoredExt)) then true
  else
    if (extnameOf (lowerL (pathnameOf u))).isEmpty then false
    else
      decide (extWithoutDot (extnameOf (lowerL (pathnameOf u))) ∈ ignoredExt)
        || decide (extnameOf (lowerL (pathnameOf u)) ∈ ignoredExt)

theorem getLastD_of_ne_nil {l : List (List Char)} (h : l ≠ []) (d1 d2 : List Char) :
    l.getLastD d1 = l.getLastD d2 := by
  induction l generalizing d1 d2 with
  | nil => exact absurd rfl h
  | cons a rest ih =>
    cases rest with
    | nil => rfl
    | cons b bs =>
      show (b :: bs).getLastD a = (b :: bs).getLastD a
      rfl

theorem suffix_last_piece {d : Char} {suffix l : List Char}
    (hd : ∀ c ∈ suffix, c ≠ d) (h : suffix <:+ l) :
    suffix <:+ (splitOnChar d l).getLastD [] := by
  induction l with
  | nil =>
    have hs : suffix = [] := List.suffix_nil.mp h
    subst hs
    exact List.nil_suffix
  | cons c rest ih =>
    rcases List.suffix_cons_iff.mp h with rfl | h2
    · rw [splitOnChar_no_delim hd]
      exact List.suffix_refl _
    · have hrec := ih h2
      simp only [splitOnChar]
      by_cases hc : c = d
      · rw [if_pos hc]
        cases hS : splitOnChar d rest with
        | nil => exact absurd hS (splitOnChar_ne_nil d rest)
        | cons s ss =>
          rw [hS] at hrec
          exact hrec
      · rw [if_neg hc]
        cases hS : splitOnChar d rest with
        | nil => exact absurd hS (splitOnChar_ne_nil d rest)
        | cons s ss =>
          rw [hS] at hrec
          cases ss with
          | nil =>
            show suffix <:+ (c :: s)
            have hss : s <:+ c :: s := List.suffix_cons c s
            exact hrec.trans hss
          | cons s2 ss2 =>
            show suffix <:+ (s2 :: ss2).getLastD (c :: s)
            rw [getLastD_of_ne_nil (by simp) (c :: s) s]
            exact hrec

theorem extnameAux_none_of_no_dot {l : List Char} (h : ∀ c ∈ l, c ≠ '.') :
    extnameAux l = none := by
  induction l with
  | nil => rfl
  | cons c rest ih =>
    have hrest := ih (fun x hx => h x (List.mem_cons_of_mem c hx))
    have hc : c ≠ '.' := h c (List.mem_cons_self c rest)
    simp [extnameAux, hrest, hc]

theorem extnameAux_last_dot {l1 l2 : List Char} (h : ∀ c ∈ l2, c ≠ '.') :
    extnameAux (l1 ++ '.' :: l2) = some ('.' :: l2) := by
  induction l1 with
  | nil =>
    simp [List.nil_append, extnameAux, extnameAux_none_of_no_dot h]
  | cons c rest ih =>
    simp only [List.cons_append, extnameAux, List.append_eq] at ih ⊢
    rw [ih]

theorem extnameBase_eq {b ext : List Char} (haux : extnameAux b = some ext)
    (hb : b ≠ ext) : extnameBase b = ext := by
  cases b with
  | nil => simp [extnameAux] at haux
  | cons c rest =>
    show (if c = '.' then (extnameAux rest).getD []
      else (extnameAux (c :: rest)).getD []) = ext
    by_cases hc : c = '.'
    · rw [if_pos hc]
      unfold extnameAux at haux
      cases hrest : extnameAux rest with
      | some e =>
        rw [hrest] at haux
        simp only [Option.some.injEq] at haux
        exact haux
      | none =>
        rw [hrest] at haux
        simp only at haux
        rw [if_pos hc] at haux
        injection haux with he
        exact absurd he hb
    · rw [if_neg hc, haux]
      rfl

theorem extname_of_suffix_targz {P : List Char} (h : ".tar.gz".data <:+ P) :
    extnameOf P = ".gz".data := by
  have hb : ".tar.gz".data <:+ (splitOnChar '/' P).getLastD [] :=
    suffix_last_piece (by decide) h
  obtain ⟨Y, hY⟩ := hb
  have hsplit : ".tar.gz".data = ['.', 't', 'a', 'r'] ++ '.' :: "gz".data := by decide
  have haux : extnameAux ((splitOnChar '/' P).getLastD []) = some ('.' :: "gz".data) := by
    rw [← hY, hsplit, ← List.append_assoc]
    exact extnameAux_last_dot (by decide)
  have hgz : ('.' :: "gz".data) = ".gz".data := by decide
  have hlen : ((splitOnChar '/' P).getLastD []).length ≥ 7 := by
    rw [← hY]
    simp
  unfold extnameOf
  rw [if_neg (by intro hbb; rw [hbb] at hlen; simp at hlen)]
  apply extnameBase_eq (hgz ▸ haux)
  intro hbb
  rw [hbb] at hlen
  simp [String.data] at hlen

/-- C9 counterexample: the claim fails in both directions.  A URL whose path
is the dotfile `/.pdf` ends in `.pdf` and `pdf` is in the ignore list, yet
`hasIgnoredExtension` returns false (Node `path.extname` gives dotfiles no
extension); and a URL ending in `.tar.gz` returns true with ignore list
`[gz]` even though the compound form `tar.gz` is not listed (the plain
final extension `gz` matches). -/
theorem C9_counterexample :
    (hasIgnoredExtension ["pdf".data]
        ⟨"https".data, "ex.com".data, [".pdf".data], [], none⟩ = false
      ∧ endsWithL (lowerL (pathnameOf
          (⟨"https".data, "ex.com".data, [".pdf".data], [], none⟩ : UrlRec)))
          ".pdf".data = true
      ∧ "pdf".data ∈ ["pdf".data]) ∧
    (hasIgnoredExtension ["gz".data]
        ⟨"https".data, "ex.com".data, ["x.tar.gz".data], [], none⟩ = true
      ∧ "tar.gz".data ∉ ["gz".data]) := by decide

/-- C9 (amended): (a) `HasIgnoredExtension` returns true for every URL whose
path's final segment has extension `.pdf` in Node `path.extname` semantics
(so not for the bare dotfile segment `.pdf`) when `pdf` is in the ignore
list; (b) for a URL whose path ends in `.tar.gz` it returns true iff one of
the compound forms `tar.gz`/`tar.bz2`/`tar.xz` is listed or the plain final
extension (`gz` or `.gz`) is listed — not only if `tar.gz` is. -/
theorem C9_hasIgnoredExtension_amended :
    (∀ (ignored : List (List Char)) (u : UrlRec),
      extnameOf (lowerL (pathnameOf u)) = ".pdf".data → "pdf".data ∈ ignored →
      hasIgnoredExtension ignored u = true) ∧
    (∀ (ignored : List (List Char)) (u : UrlRec),
      endsWithL (lowerL (pathnameOf u)) ".tar.gz".data = true →
      (hasIgnoredExtension ignored u = true ↔
        ("tar.gz".data ∈ ignored ∨ "tar.bz2".data ∈ ignored ∨ "tar.xz".data ∈ ignored
          ∨ "gz".data ∈ ignored ∨ ".gz".data ∈ ignored))) := by
  constructor
  · intro ignored u hext hmem
    unfold hasIgnoredExtension
    by_cases hcond : ((endsWithL (lowerL (pathnameOf u)) ".tar.gz".data
        || endsWithL (lowerL (pathnameOf u)) ".tar.bz2".data
        || endsWithL (lowerL (pathnameOf u)) ".tar.xz".data)
        && (decide ("tar.gz".data ∈ ignored) || decide ("tar.bz2".data ∈ ignored)
            || decide ("tar.xz".data ∈ ignored))) = true
    · rw [if_pos hcond]
    · rw [if_neg hcond, hext]
      rw [if_neg (by intro hh; exact absurd hh (by decide))]
      have h2 : extWithoutDot ".pdf".data = "pdf".data := by decide
      rw [h2]
      simp [hmem]
  · intro ignored u hsuf
    unfold hasIgnoredExtension
    rw [hsuf]
    have hext : extnameOf (lowerL (pathnameOf u)) = ".gz".data :=
      extname_of_suffix_targz (List.isSuffixOf_iff_suffix.mp hsuf)
    by_cases hL : (decide ("tar.gz".data ∈ ignored) || decide ("tar.bz2".data ∈ ignored)
        || decide ("tar.xz".data ∈ ignored)) = true
    · rw [if_pos (by simp only [Bool.true_or, Bool.true_and]; exact hL)]
      simp only [Bool.or_eq_true, decide_eq_true_eq] at hL
      constructor
      · intro _; tauto
      · intro _; rfl
    · rw [if_neg (by simp only [Bool.true_or, Bool.true_and]; exact hL)]
      rw [hext]
      rw [if_neg (by intro hh; exact absurd hh (by decide))]
      have h2 : extWithoutDot ".gz".data = "gz".data := by decide
      rw [h2]
      simp only [Bool.or_eq_true, decide_eq_true_eq] at hL ⊢
      push_neg at hL
      obtain ⟨⟨hL1, hL2⟩, hL3⟩ := hL
      constructor
      · intro hgz; tauto
      · intro hor
        rcases hor with h | h | h | h | h
        · exact absurd h hL1
        · exact absurd h hL2
        · exact absurd h hL3
        · exact Or.inl h
        · exact Or.inr h

/-- C9 witness: the amended theorem applied to `https://ex.com/a.pdf` with
ignore list `[pdf]`. -/
theorem C9_witness :
    hasIgnoredExtension ["pdf".data]
      ⟨"https".data, "ex.com".data, ["a.pdf".data], [], none⟩ = true :=
  C9_hasIgnoredExtension_amended.1 ["pdf".data]
    ⟨"https".data, "ex.com".data, ["a.pdf".data], [], none⟩
    (by decide) (by decide)

/-!
Network and fetch model.  `fetchOnce`/`fetch` are modelled by a `Net`
function from (url, user-agent) to an optional response; `none` models a
thrown network/timeout error.  The per-request timeout and the constant
`Accept`/`Accept-Language` headers of `fetchOnce` have no observable effect
in this model beyond the UA.  Relative `Location` resolution
(`new URL(loc, currentUrl)`) is an explicit `Resolver`; `none` models the
constructor throwing.
-/

/-- Lowercase a string (ASCII). -/
def lowerS (s : String) : String := String.mk (lowerL s.data)

/-- Abstract HTML document at the level the cheerio queries of the sources
extract it: anchor hrefs, meta-robots contents, canonical hrefs and
hreflang alternates, in document order. -/
structure Html where
  anchors : List String
  metaRobotsContents : List String
  canonicalHrefs : List String
  hreflangs : List (String × String)
deriving DecidableEq, Repr

/-- Abstract HTTP response: status, header list, and the parsed body
(`none` models an unreadable or empty body). -/
structure Resp where
  status : Nat
  headers : List (String × String)
  body : Option Html
deriving DecidableEq, Repr

/-- Network model. -/
def Net := String → String → Option Resp

/-- Relative-URL resolution model. -/
def Resolver := String → String → Option String

/-- Models `Headers.prototype.get`: case-insensitive name match, multiple
values joined with a comma. -/
def headersGet (headers : List (String × String)) (name : String) : Option String :=
  match (headers.filter (fun p => lowerS p.1 == lowerS name)).map (fun p => p.2) with
  | [] => none
  | vs => some (String.intercalate ", " vs)

/-- Fallback browser user agent (`BROWSER_UA`, `crawl.ts` lines 23-24). -/
def BROWSER_UA : String :=
  "Mozilla/5.0 (Windows NT 10.0; Win64; x64) AppleWebKit/537.36 (KHTML, like Gecko) Chrome/124 Safari/537.36"

/-- One redirect hop (`RedirectHop` of `contracts.ts`; `fr`/`toUrl` stand
for the `from`/`to` fields). -/
structure RedirectHop where
  fr : String
  toUrl : String
  status : Nat
deriving DecidableEq, Repr

/-- Result of a redirect-following fetch. -/
structure ChainResult where
  res : Resp
  finalUrl : String
  redirectChain : List RedirectHop
deriving DecidableEq, Repr

/-- Statuses treated as WAF/CDN blocking (`BLOCKED_STATUSES`,
`crawl.ts` line 45). -/
def BLOCKED_STATUSES : List Nat := [403, 406, 409, 410, 429, 451, 503]

/-- Redirect-following loop of the crawler fetcher (`crawl.ts` lines 65-79):
follow while the status is a redirect, a `Location` header exists and fewer
than 10 hops were taken; resolve the location against the current URL and
append one hop per redirect. -/
def chainLoop (net : Net) (resolve : Resolver) (ua : String) :
    Nat → Resp → String → List RedirectHop → Option ChainResult
  | 0, res, currentUrl, hops => some ⟨res, currentUrl, hops⟩
  | safety + 1, res, currentUrl, hops =>
    if res.status ∈ [301, 302, 303, 307, 308] then
      match headersGet res.headers "location" with
      | none => some ⟨res, currentUrl, hops⟩
      | some loc =>
        match resolve loc currentUrl with
        | none => none
        | some next =>
          match net next ua with
          | none => none
          | some res2 =>
            chainLoop net resolve ua safety res2 next
              (hops ++ [⟨currentUrl, next, res.status⟩])
    else some ⟨res, currentUrl, hops⟩

/-- One whole redirect chain starting from `url` (`chain` in
`fetchWithRedirects`). -/
def chain (net : Net) (resolve : Resolver) (url ua : String) : Option ChainResult :=
  match net url ua with
  | none => none
  | some res => chainLoop net resolve ua 10 res url []

/-- Embedding of the crawler `fetchWithRedirects` (`crawl.ts` lines 64-100)
with its blocked-status browser-UA fallback and hard-failure retry. -/
def fetchWithRedirects (net : Net) (resolve : Resolver) (url ua : String) :
    Option ChainResult :=
  match chain net resolve url ua with
  | some r1 =>
    if r1.res.status ∈ BLOCKED_STATUSES ∧ ua ≠ BROWSER_UA then
      match chain net resolve url BROWSER_UA with
      | some r2 => some r2
      | none => some r1
    else some r1
  | none =>
    if ua ≠ BROWSER_UA then chain net resolve url BROWSER_UA
    else none

/-- Redirect-following loop of the auditor fetcher (`indexability.ts`
lines 26-33), translated independently of the crawler loop. -/
def auditChainLoop (net : Net) (resolve : Resolver) (ua : String) :
    Nat → Resp → String → List RedirectHop → Option ChainResult
  | 0, res, currentUrl, hops => some ⟨res, currentUrl, hops⟩
  | safety + 1, res, currentUrl, hops =>
    if res.status ∈ [301, 302, 303, 307, 308] then
      match headersGet res.headers "location" with
      | none => some ⟨res, currentUrl, hops⟩
      | some loc =>
        match resolve loc currentUrl with
        | none => none
        | some next =>
          match net next ua with
          | none => none
          | some res2 =>
            auditChainLoop net resolve ua safety res2 next
              (hops ++ [⟨currentUrl, next, res.status⟩])
    else some ⟨res, currentUrl, hops⟩

/-- Embedding of the auditor `fetchWithRedirects` (`indexability.ts` lines
19-35): a single redirect chain with no UA fallback, no timeout and only
the UA header. -/
def auditFetchWithRedirects (net : Net) (resolve : Resolver) (url ua : String) :
    Option ChainResult :=
  match net url ua with
  | none => none
  | some res => auditChainLoop net resolve ua 10 res url []

/-- Resolver that takes the `Location` value as an absolute URL. -/
def resolveId : Resolver := fun loc _ => some loc

/-- Mock origin for the redirect scenario: `/a` 301-redirects to `/b`,
`/b` 302-redirects to `/c`, `/c` answers 200. -/
def netRedirects : Net := fun url _ =>
  if url = "https://s.ex/a" then some ⟨301, [("location", "https://s.ex/b")], none⟩
  else if url = "https://s.ex/b" then some ⟨302, [("location", "https://s.ex/c")], none⟩
  else if url = "https://s.ex/c" then some ⟨200, [], none⟩
  else none

/-- Mock origin that blocks the caller UA `X` with 403 and throws for every
other UA. -/
def netBlockThenThrow : Net := fun url ua =>
  if ua = BROWSER_UA then none
  else if url = "https://b.ex/" then some ⟨403, [], none⟩
  else none

/-- Mock origin returning 403 for UA `X` and 200 for the fallback browser
UA. -/
def netBlockBrowserOk : Net := fun url ua =>
  if url = "https://b.ex/" then
    (if ua = BROWSER_UA then some ⟨200, [], none⟩ else some ⟨403, [], none⟩)
  else none

theorem chainLoop_length {net : Net} {resolve : Resolver} {ua : String} :
    ∀ (fuel : Nat) (res : Resp) (cur : String) (hops : List RedirectHop)
      (r : ChainResult),
      chainLoop net resolve ua fuel res cur hops = some r →
      r.redirectChain.length ≤ hops.length + fuel := by
  intro fuel
  induction fuel with
  | zero =>
    intro res cur hops r h
    injection h with h
    subst h
    simp
  | succ n ih =>
    intro res cur hops r h
    rw [chainLoop] at h
    by_cases hst : res.status ∈ [301, 302, 303, 307, 308]
    · rw [if_pos hst] at h
      cases hloc : headersGet res.headers "location" with
      | none =>
        simp only [hloc] at h
        injection h with h
        subst h
        simp
      | some loc =>
        simp only [hloc] at h
        cases hres : resolve loc cur with
        | none => simp [hres] at h
        | some next =>
          simp only [hres] at h
          cases hnet : net next ua with
          | none => simp [hnet] at h
          | some res2 =>
            simp only [hnet] at h
            have hb := ih res2 next (hops ++ [⟨cur, next, res.status⟩]) r h
            simp only [List.length_append, List.length_cons, List.length_nil] at hb
            omega
    · rw [if_neg hst] at h
      injection h with h
      subst h
      simp only [List.length_nil]
      omega

theorem chain_length {net : Net} {resolve : Resolver} {url ua : String}
    {r : ChainResult} (h : chain net resolve url ua = some r) :
    r.redirectChain.length ≤ 10 := by
  unfold chain at h
  cases hnet : net url ua with
  | none => rw [hnet] at h; cases h
  | some res =>
    rw [hnet] at h
    have hb := chainLoop_length 10 res url [] r h
    simpa using hb

/-- C3: the crawler fetcher's anti-blocking policy.  If the first chain
completes with a final status in the blocked set and the caller UA differs
from the fallback, the entire chain is re-run with the browser UA, and a
throwing retry falls back to the original blocked result; if the first
chain throws with a non-fallback UA, one retry with the fallback UA is the
result; with the fallback UA already in use, the failure propagates. -/
theorem C3_blocked_ua_fallback (net : Net) (resolve : Resolver) (url ua : String) :
    (∀ r1, chain net resolve url ua = some r1 →
      r1.res.status ∈ BLOCKED_STATUSES → ua ≠ BROWSER_UA →
      fetchWithRedirects net resolve url ua =
        (match chain net resolve url BROWSER_UA with
          | some r2 => some r2
          | none => some r1)) ∧
    (chain net resolve url ua = none → ua ≠ BROWSER_UA →
      fetchWithRedirects net resolve url ua = chain net resolve url BROWSER_UA) ∧
    (chain net resolve url ua = none → ua = BROWSER_UA →
      fetchWithRedirects net resolve url ua = none) := by
  refine ⟨?_, ?_, ?_⟩
  · intro r1 h hblock hua
    unfold fetchWithRedirects
    simp only [h]
    rw [if_pos ⟨hblock, hua⟩]
  · intro h hua
    unfold fetchWithRedirects
    simp only [h]
    rw [if_pos hua]
  · intro h hua
    unfold fetchWithRedirects
    simp only [h]
    rw [if_neg (by simp [hua])]

/-- C3 witness: a mock origin answering 403 to UA `X` and throwing for the
browser UA — the original blocked result is returned rather than failing. -/
theorem C3_witness :
    fetchWithRedirects netBlockThenThrow resolveId "https://b.ex/" "X" =
      some ⟨⟨403, [], none⟩, "https://b.ex/", []⟩ := by
  have h := (C3_blocked_ua_fallback netBlockThenThrow resolveId "https://b.ex/" "X").1
    ⟨⟨403, [], none⟩, "https://b.ex/", []⟩ (by decide) (by decide) (by decide)
  rw [h]
  decide

/-- C5: redirect following.  The redirect chain of any completed fetch has
at most 10 hops; a redirect response without a `Location` header ends the
chain with the current response as final; and the mock 301 → 302 → 200
server yields exactly the two hops and the 200 response's URL as
`finalUrl`. -/
theorem C5_redirect_chain (net : Net) (resolve : Resolver) (url ua : String) :
    (∀ r, fetchWithRedirects net resolve url ua = some r →
      r.redirectChain.length ≤ 10) ∧
    (∀ (fuel : Nat) (res : Resp) (cur : String) (hops : List RedirectHop),
      res.status ∈ [301, 302, 303, 307, 308] →
      headersGet res.headers "location" = none →
      chainLoop net resolve ua (fuel + 1) res cur hops = some ⟨res, cur, hops⟩) ∧
    (fetchWithRedirects netRedirects resolveId "https://s.ex/a" "X" =
      some ⟨⟨200, [], none⟩, "https://s.ex/c",
        [⟨"https://s.ex/a", "https://s.ex/b", 301⟩,
         ⟨"https://s.ex/b", "https://s.ex/c", 302⟩]⟩) := by
  refine ⟨?_, ?_, by decide⟩
  · intro r h
    unfold fetchWithRedirects at h
    cases h1 : chain net resolve url ua with
    | none =>
      simp only [h1] at h
      by_cases hua : ua ≠ BROWSER_UA
      · rw [if_pos hua] at h
        exact chain_length h
      · rw [if_neg hua] at h
        cases h
    | some r1 =>
      simp only [h1] at h
      by_cases hb : r1.res.status ∈ BLOCKED_STATUSES ∧ ua ≠ BROWSER_UA
      · rw [if_pos hb] at h
        cases h2 : chain net resolve url BROWSER_UA with
        | none =>
          simp only [h2] at h
          injection h with h
          subst h
          exact chain_length h1
        | some r2 =>
          simp only [h2] at h
          injection h with h
          subst h
          exact chain_length h2
      · rw [if_neg hb] at h
        injection h with h
        subst h
        exact chain_length h1
  · intro fuel res cur hops hst hloc
    rw [chainLoop, if_pos hst, hloc]

/-- C5 witness: a 301 response with no `Location` header is final. -/
theorem C5_witness :
    chainLoop netRedirects resolveId "X" 10 ⟨301, [], none⟩ "https://s.ex/z" [] =
      some ⟨⟨301, [], none⟩, "https://s.ex/z", []⟩ :=
  (C5_redirect_chain netRedirects resolveId "https://s.ex/z" "X").2.1 9
    ⟨301, [], none⟩ "https://s.ex/z" [] (by decide) (by decide)

theorem auditChainLoop_eq_chainLoop (net : Net) (resolve : Resolver) (ua : String) :
    ∀ (fuel : Nat) (res : Resp) (cur : String) (hops : List RedirectHop),
      auditChainLoop net resolve ua fuel res cur hops =
        chainLoop net resolve ua fuel res cur hops := by
  intro fuel
  induction fuel with
  | zero => intro res cur hops; rfl
  | succ n ih =>
    intro res cur hops
    rw [auditChainLoop, chainLoop]
    by_cases hst : res.status ∈ [301, 302, 303, 307, 308]
    · rw [if_pos hst, if_pos hst]
      cases hloc : headersGet res.headers "location" with
      | none => simp only [hloc]
      | some loc =>
        simp only [hloc]
        cases hres : resolve loc cur with
        | none => simp only [hres]
        | some next =>
          simp only [hres]
          cases hnet : net next ua with
          | none => simp only [hnet]
          | some res2 =>
            simp only [hnet]
            exact ih res2 next (hops ++ [⟨cur, next, res.status⟩])
    · rw [if_neg hst, if_neg hst]

/-- C8 counterexample: the auditor fetch is not the same operation as the
crawler fetcher — on an origin answering 403 to the caller UA and 200 to
the browser UA, the crawler fetcher returns 200 via its UA fallback while
the auditor fetch returns the blocked 403 (it has no fallback; the timeout
and Accept headers of the crawler are also absent from the auditor's
request, outside this model). -/
theorem C8_counterexample :
    auditFetchWithRedirects netBlockBrowserOk resolveId "https://b.ex/" "X" =
        some ⟨⟨403, [], none⟩, "https://b.ex/", []⟩ ∧
    fetchWithRedirects netBlockBrowserOk resolveId "https://b.ex/" "X" =
        some ⟨⟨200, [], none⟩, "https://b.ex/", []⟩ ∧
    auditFetchWithRedirects netBlockBrowserOk resolveId "https://b.ex/" "X" ≠
      fetchWithRedirects netBlockBrowserOk resolveId "https://b.ex/" "X" := by
  refine ⟨by decide, by decide, ?_⟩
  decide

/-- C8 (amended): the auditor's per-URL fetch performs exactly one redirect
chain of the crawler fetcher — same redirect statuses, same `Location`
resolution, same 10-hop cap, same hop records — but without the
blocked-status UA fallback retry (and, outside this model, without the
crawler's timeout and Accept/Accept-Language headers). -/
theorem C8_audit_fetch_is_single_chain (net : Net) (resolve : Resolver)
    (url ua : String) :
    auditFetchWithRedirects net resolve url ua = chain net resolve url ua := by
  unfold auditFetchWithRedirects chain
  cases net url ua with
  | none => rfl
  | some res => exact auditChainLoop_eq_chainLoop net resolve ua 10 res url []

/-!
Embedding of the indexability auditor (`audit/indexability.ts`).
-/

/-- Split a character list at every character satisfying `p`. -/
def splitOnPred (p : Char → Bool) : List Char → List (List Char)
  | [] => [[]]
  | c :: rest =>
    if p c then [] :: splitOnPred p rest
    else
      match splitOnPred p rest with
      | [] => [[c]]
      | s :: ss => (c :: s) :: ss

/-- Trim surrounding whitespace (`String.prototype.trim`). -/
def trimL (l : List Char) : List Char :=
  ((l.dropWhile (fun c => c.isWhitespace)).reverse.dropWhile
    (fun c => c.isWhitespace)).reverse

/-- Embedding of `RobotsDirectives` (`contracts.ts`): six optional
booleans, `none` meaning "not asserted". -/
structure RobotsDirectives where
  noindex : Option Bool := none
  nofollow : Option Bool := none
  noarchive : Option Bool := none
  nosnippet : Option Bool := none
  noimageindex : Option Bool := none
  nocache : Option Bool := none
deriving DecidableEq, Repr

/-- Embedding of `parseRobotsDirectives` (`indexability.ts` lines 38-59):
`undefined` for a falsy input, otherwise tokenize on commas/semicolons,
trim, lower-case, drop empties, and assert the recognized directives. -/
def parseRobotsDirectives (raw : Option String) : Option RobotsDirectives :=
  match raw with
  | none => none
  | some r =>
    if r = "" then none
    else
      let tokens := ((splitOnPred (fun c => c == ',' || c == ';') r.data).map
        (fun t => lowerL (trimL t))).filter (fun t => !t.isEmpty)
      some {
        noindex := if "noindex".data ∈ tokens then some true else none
        nofollow := if "nofollow".data ∈ tokens then some true else none
        noarchive := if "noarchive".data ∈ tokens then some true else none
        nosnippet := if "nosnippet".data ∈ tokens then some true else none
        noimageindex := if "noimageindex".data ∈ tokens then some true else none
        nocache := if "nocache".data ∈ tokens then some true else none }

/-- Embedding of `mergeRobots` (`indexability.ts` lines 61-71):
`undefined` when both inputs are, otherwise an object with every field set
to `Boolean(a?.f || b?.f)`. -/
def mergeRobots (a b : Option RobotsDirectives) : Option RobotsDirectives :=
  if a = none ∧ b = none then none
  else some {
    noindex := some ((a.bind (fun d => d.noindex)).getD false
      || (b.bind (fun d => d.noindex)).getD false)
    nofollow := some ((a.bind (fun d => d.nofollow)).getD false
      || (b.bind (fun d => d.nofollow)).getD false)
    noarchive := some ((a.bind (fun d => d.noarchive)).getD false
      || (b.bind (fun d => d.noarchive)).getD false)
    nosnippet := some ((a.bind (fun d => d.nosnippet)).getD false
      || (b.bind (fun d => d.nosnippet)).getD false)
    noimageindex := some ((a.bind (fun d => d.noimageindex)).getD false
      || (b.bind (fun d => d.noimageindex)).getD false)
    nocache := some ((a.bind (fun d => d.nocache)).getD false
      || (b.bind (fun d => d.nocache)).getD false) }

/-- Embedding of `getAllXRobots` (`indexability.ts` lines 74-80). -/
def getAllXRobots (headers : List (String × String)) : List String :=
  (headers.filter (fun p => lowerS p.1 == "x-robots-tag")).map (fun p => p.2)

/-- Signals extracted from an HTML document;
`canonical = none` models `undefined`, `some none` models `null`. -/
structure HtmlSignals where
  canonical : Option (Option String)
  hreflang : List (String × String)
  metaRobots : Option RobotsDirectives
  issues : List String
deriving DecidableEq, Repr

/-- Embedding of `extractHtmlSignals` (`indexability.ts` lines 83-129). -/
def extractHtmlSignals (html : Html) (baseUrl : String) (resolve : Resolver) :
    HtmlSignals :=
  { canonical :=
      match html.canonicalHrefs with
      | [] => none
      | href :: _ =>
        if href.trim = "" then some none
        else some (resolve href.trim baseUrl)
    hreflang := html.hreflangs.filterMap (fun p =>
      if p.1.trim = "" ∨ p.2.trim = "" then none
      else (resolve p.2.trim baseUrl).map (fun abs => (p.1.trim, abs)))
    metaRobots := html.metaRobotsContents.foldl
      (fun acc content => mergeRobots acc (parseRobotsDirectives (some content))) none
    issues := if 1 < html.canonicalHrefs.length then ["multiple canonicals"] else [] }

/-- Content-type test `contentType?.includes("text/html")`. -/
def ctIncludesHtml (ct : Option String) : Bool :=
  match ct with
  | none => false
  | some s => decide ("text/html".data <:+: s.data)

/-- Canonical truthiness: a present, non-null, nonempty canonical string. -/
def canonTruthy (c : Option (Option String)) : Option String :=
  match c with
  | some (some s) => if s = "" then none else some s
  | _ => none

/-- Embedding of `AuditResult` (`contracts.ts`); the `noindex` record is
flattened into `noindexMeta`/`noindexHeader`. -/
structure AuditResult where
  url : String
  finalUrl : String
  status : Nat
  contentType : Option String
  canonical : Option String
  metaRobots : Option RobotsDirectives
  xRobots : Option RobotsDirectives
  noindexMeta : Bool
  noindexHeader : Bool
  hreflang : List (String × String)
  issues : List String
  redirectChain : List RedirectHop
deriving DecidableEq, Repr

/-- Per-URL audit pipeline (`auditIndexability`, `indexability.ts`
lines 136-226). -/
def auditOne (net : Net) (resolve : Resolver) (ua : String) (rawUrl : String) :
    AuditResult :=
  match auditFetchWithRedirects net resolve rawUrl ua with
  | none =>
    ⟨rawUrl, rawUrl, 0, none, none, none, none, false, false, [], ["fetch failed"], []⟩
  | some cr =>
    let status := cr.res.status
    let contentType := headersGet cr.res.headers "content-type"
    let xRobots := (getAllXRobots cr.res.headers).foldl
      (fun acc v => mergeRobots acc (parseRobotsDirectives (some v))) none
    let sig : HtmlSignals :=
      if status ≠ 204 ∧ ctIncludesHtml contentType then
        match cr.res.body with
        | some html => extractHtmlSignals html cr.finalUrl resolve
        | none => ⟨none, [], none, []⟩
      else ⟨none, [], none, []⟩
    let noindexMeta := (sig.metaRobots.bind (fun d => d.noindex)).getD false
    let noindexHeader := (xRobots.bind (fun d => d.noindex)).getD false
    let conflictIssues :=
      if (noindexMeta != noindexHeader) && (noindexMeta || noindexHeader) then
        ["conflicting noindex between meta and header"]
      else []
    let canonIssues :=
      match canonTruthy sig.canonical with
      | none => []
      | some cs =>
        match parseUrl cr.finalUrl.data, parseUrl cs.data with
        | some pageU, some canonU =>
          if sameETLD1 pageU canonU then [] else ["canonical points to different eTLD+1"]
        | _, _ => ["invalid canonical URL"]
    ⟨rawUrl, cr.finalUrl, status, contentType, sig.canonical.join, sig.metaRobots,
      xRobots, noindexMeta, noindexHeader, sig.hreflang,
      sig.issues ++ conflictIssues ++ canonIssues, cr.redirectChain⟩

/-- Default auditor user agent (`DEFAULT_UA`, env override abstracted). -/
def DEFAULT_UA : String := "mcp-crawler"

/-- Embedding of `auditIndexability` (`indexability.ts` lines 131-233):
one result per input URL, in order (the `pLimit` concurrency pool is
modelled sequentially). -/
def auditIndexability (net : Net) (resolve : Resolver) (urls : List String)
    (userAgent : Option String) : List AuditResult :=
  urls.map (auditOne net resolve (userAgent.getD DEFAULT_UA))

/-- Mock origin serving an HTML page whose only robots signal is
`<meta name="robots" content="noindex">`, with no `X-Robots-Tag` header. -/
def netMetaNoindex : Net := fun url _ =>
  if url = "https://c.ex/" then
    some ⟨200, [("content-type", "text/html")], some ⟨[], ["noindex"], [], []⟩⟩
  else none

/-- C6 counterexample: for a URL whose HTML has a `noindex` meta robots tag
and whose response has no `X-Robots-Tag` header, the audit sets
`noindex.meta = true` and `noindex.header = false` — and, contrary to the
claim, the "conflicting noindex between meta and header" issue IS emitted,
because the code's condition (flags differ and at least one is true) holds
for `(true, false)`. -/
theorem C6_counterexample :
    (auditOne netMetaNoindex resolveId DEFAULT_UA "https://c.ex/").noindexMeta = true ∧
    (auditOne netMetaNoindex resolveId DEFAULT_UA "https://c.ex/").noindexHeader = false ∧
    getAllXRobots [("content-type", "text/html")] = [] ∧
    "conflicting noindex between meta and header" ∈
      (auditOne netMetaNoindex resolveId DEFAULT_UA "https://c.ex/").issues := by decide

/-- C6 (amended): in the audit of any URL, whenever the meta-derived
noindex flag is true and the header-derived flag is false, the
"conflicting noindex between meta and header" issue is emitted — the
conflict check fires exactly when the two boolean flags differ and at
least one is true, so one-sided meta noindex does produce the issue. -/
theorem C6_conflict_issue_amended (net : Net) (resolve : Resolver) (ua url : String) :
    (auditOne net resolve ua url).noindexMeta = true →
    (auditOne net resolve ua url).noindexHeader = false →
    "conflicting noindex between meta and header" ∈
      (auditOne net resolve ua url).issues := by
  intro h1 h2
  unfold auditOne at h1 h2 ⊢
  cases hf : auditFetchWithRedirects net resolve url ua with
  | none =>
    simp only [hf] at h1
    cases h1
  | some cr =>
    simp only [hf] at h1 h2 ⊢
    rw [h1, h2]
    simp

/-- C6 witness: the amended theorem applied to the mock meta-noindex
origin. -/
theorem C6_witness :
    "conflicting noindex between meta and header" ∈
      (auditOne netMetaNoindex resolveId DEFAULT_UA "https://c.ex/").issues :=
  C6_conflict_issue_amended netMetaNoindex resolveId DEFAULT_UA "https://c.ex/"
    (by decide) (by decide)

/-- C7 counterexample: merging a directive set that asserts only
`nofollow` with an undefined set converts the `noindex` key — absent from
both inputs — into an explicitly asserted `false`. -/
theorem C7_counterexample :
    ((some { nofollow := some true } : Option RobotsDirectives).bind
        (fun d => d.noindex) = none) ∧
    ((none : Option RobotsDirectives).bind (fun d => d.noindex) = none) ∧
    (mergeRobots (some { nofollow := some true }) none).map (fun d => d.noindex)
      = some (some false) := by decide

/-- C7 (amended): `mergeRobots` returns `undefined` exactly when both
inputs are; otherwise it returns a set in which every one of the six
directives is explicitly asserted as the OR of the inputs' assertions
(absent read as false) — so a directive absent from both inputs becomes an
asserted `false` rather than staying absent. -/
theorem C7_mergeRobots_amended (a b : Option RobotsDirectives) :
    (mergeRobots a b = none ↔ a = none ∧ b = none) ∧
    (∀ d, mergeRobots a b = some d →
      d.noindex = some ((a.bind (fun x => x.noindex)).getD false
        || (b.bind (fun x => x.noindex)).getD false) ∧
      d.nofollow = some ((a.bind (fun x => x.nofollow)).getD false
        || (b.bind (fun x => x.nofollow)).getD false) ∧
      d.noarchive = some ((a.bind (fun x => x.noarchive)).getD false
        || (b.bind (fun x => x.noarchive)).getD false) ∧
      d.nosnippet = some ((a.bind (fun x => x.nosnippet)).getD false
        || (b.bind (fun x => x.nosnippet)).getD false) ∧
      d.noimageindex = some ((a.bind (fun x => x.noimageindex)).getD false
        || (b.bind (fun x => x.noimageindex)).getD false) ∧
      d.nocache = some ((a.bind (fun x => x.nocache)).getD false
        || (b.bind (fun x => x.nocache)).getD false) ∧
      (a.bind (fun x => x.noindex) = none → b.bind (fun x => x.noindex) = none →
        d.noindex = some false)) := by
  unfold mergeRobots
  by_cases h : a = none ∧ b = none
  · rw [if_pos h]
    refine ⟨by simp [h], ?_⟩
    intro d hd
    cases hd
  · rw [if_neg h]
    refine ⟨by simp [h], ?_⟩
    intro d hd
    injection hd with hd
    subst hd
    refine ⟨rfl, rfl, rfl, rfl, rfl, rfl, ?_⟩
    intro ha hb
    rw [ha, hb]
    rfl

/-- C7 witness: the amended theorem at the counterexample inputs. -/
theorem C7_witness :
    ({ noindex := some false, nofollow := some true, noarchive := some false,
       nosnippet := some false, noimageindex := some false,
       nocache := some false } : RobotsDirectives).noindex = some false :=
  ((C7_mergeRobots_amended (some { nofollow := some true }) none).2
    { noindex := some false, nofollow := some true, noarchive := some false,
      nosnippet := some false, noimageindex := some false, nocache := some false }
    (by decide)).2.2.2.2.2.2 (by decide) (by decide)

/-- C10: `auditIndexability` returns exactly one `AuditResult` per input
URL, preserving input order — mapping each result to its `url` field gives
back the input list (failed fetches included, since the failure record also
carries the requested URL), and the lengths agree. -/
theorem C10_audit_one_result_per_url (net : Net) (resolve : Resolver)
    (urls : List String) (userAgent : Option String) :
    (auditIndexability net resolve urls userAgent).map (fun r => r.url) = urls ∧
    (auditIndexability net resolve urls userAgent).length = urls.length := by
  have hurl : ∀ u, (auditOne net resolve (userAgent.getD DEFAULT_UA) u).url = u := by
    intro u
    unfold auditOne
    cases auditFetchWithRedirects net resolve u (userAgent.getD DEFAULT_UA) <;> rfl
  constructor
  · unfold auditIndexability
    rw [List.map_map]
    calc urls.map ((fun r => r.url) ∘ auditOne net resolve (userAgent.getD DEFAULT_UA))
        = urls.map id := List.map_congr_left (fun u _ => hurl u)
      _ = urls := List.map_id urls
  · unfold auditIndexability
    rw [List.length_map]

/-!
Embedding of the crawl engine (`crawler/crawl.ts`).  The cooperative
single-threaded scheduler is modelled sequentially: each batch of up to
`maxConc` queued nodes is visited in order, which matches the source's
atomic seen-check-and-mark (no suspension point between check and mark).
Sitemap discovery/collection (`discoverSitemaps`/`collectSitemapUrls`) is
abstracted as the raw URL list it returns, normalized and deduplicated
exactly as `crawlSite` lines 132-140 do.
-/

/-- Discovery provenance (`DiscoveredBy` of `contracts.ts`). -/
inductive DiscoveredBy
  | html
  | sitemap
  | both
deriving DecidableEq, Repr

/-- Embedding of `InventoryItem` (`contracts.ts`). -/
structure InventoryItem where
  url : String
  normalizedUrl : String
  finalUrl : String
  status : Nat
  contentType : Option String
  depth : Nat
  discoveredBy : DiscoveredBy
  redirectChain : List RedirectHop
deriving DecidableEq, Repr

/-- Embedding of `Edge` (`contracts.ts`; `fr`/`toKey` stand for
`from`/`to`). -/
structure Edge where
  fr : String
  toKey : String
deriving DecidableEq, Repr

/-- Mutable state of one crawl run: the BFS frontier, the seen-key set,
the inventory map (association list in insertion order, as a JS `Map`),
the edge list and the fetched counter. -/
structure CrawlState where
  queue : List (String × Nat)
  seen : List String
  inv : List (String × InventoryItem)
  edges : List Edge
  fetched : Nat
deriving Repr

/-- Lookup in the inventory map. -/
def lookupInv (inv : List (String × InventoryItem)) (k : String) :
    Option InventoryItem :=
  match inv.find? (fun p => p.1 == k) with
  | some p => some p.2
  | none => none

/-- Insert-or-replace in the inventory map (`Map.prototype.set`: an
existing key keeps its position, a new key is appended). -/
def insertInv (inv : List (String × InventoryItem)) (k : String)
    (item : InventoryItem) : List (String × InventoryItem) :=
  if (inv.find? (fun p => p.1 == k)).isSome then
    inv.map (fun p => if p.1 == k then (k, item) else p)
  else inv ++ [(k, item)]

/-- Insertion-ordered set insertion (JS `Set.prototype.add`). -/
def addUnique (acc : List String) (x : String) : List String :=
  if x ∈ acc then acc else acc ++ [x]

/-- Insertion-ordered deduplication (iterating a JS `Set`). -/
def dedupKeep (l : List String) : List String := l.foldl addUnique []

/-- Static configuration of one crawl run. -/
structure CrawlConfig where
  net : Net
  resolve : Resolver
  base : UrlRec
  includeSub : Bool
  depthMax : Nat
  maxPages : Nat
  maxConc : Nat
  respectRobots : Bool
  isAllowed : String → Bool
  ignoredExt : List (List Char)
  ua : String
  fromSitemaps : List String

/-- Anchor hrefs of a page: trimmed, non-empty, absolutized against the
final URL, deduplicated in insertion order (`crawl.ts` lines 223-229). -/
def extractLinks (cfg : CrawlConfig) (finalUrl : String)
    (anchors : List String) : List String :=
  dedupKeep (anchors.filterMap (fun raw =>
    if raw.trim = "" then none else cfg.resolve raw.trim finalUrl))

/-- Normalize the `|| null` content-type (`res.headers.get("content-type")
|| null`: an empty string becomes null). -/
def contentTypeOf (headers : List (String × String)) : Option String :=
  match headersGet headers "content-type" with
  | some ct => if ct = "" then none else some ct
  | none => none

/-- Response success test (`Response.prototype.ok`). -/
def respOk (r : Resp) : Prop := 200 ≤ r.status ∧ r.status < 300

instance (r : Resp) : Decidable (respOk r) := by unfold respOk; infer_instance

/-- Record one edge and possibly enqueue one extracted link
(`crawl.ts` lines 231-242, body of the `for (const toAbs of hrefs)` loop). -/
def linkStep (cfg : CrawlConfig) (finalUrl : String) (nodeDepth : Nat)
    (st : CrawlState) (toAbs : String) : CrawlState :=
  match parseUrl toAbs.data with
  | none => st
  | some toURL =>
    if ¬ isInternal cfg.base toURL cfg.includeSub = true then st
    else if hasIgnoredExtension cfg.ignoredExt toURL = true then st
    else
      let toKey := normalizeForKey toAbs
      let st2 := { st with
        edges := st.edges ++ [⟨normalizeForKey finalUrl, toKey⟩] }
      if toKey ∉ st2.seen ∧ nodeDepth < cfg.depthMax then
        { st2 with queue := st2.queue ++ [(toAbs, nodeDepth + 1)] }
      else st2

/-- Inventory item recorded by a visit (`crawl.ts` lines 186-200). -/
def visitItem (cfg : CrawlConfig) (node : String × Nat) (key : String)
    (cr : ChainResult) : InventoryItem :=
  ⟨node.1, key, cr.finalUrl, cr.res.status, contentTypeOf cr.res.headers, node.2,
    (if key ∈ cfg.fromSitemaps ∨ normalizeForKey cr.finalUrl ∈ cfg.fromSitemaps
      then .both else .html),
    cr.redirectChain⟩

/-- Record-or-merge of the visit item (`crawl.ts` lines 202-215). -/
def visitInv (cfg : CrawlConfig) (node : String × Nat) (key : String)
    (cr : ChainResult) (inv : List (String × InventoryItem)) :
    List (String × InventoryItem) :=
  match lookupInv inv key with
  | some prev =>
    insertInv inv key
      { visitItem cfg node key cr with discoveredBy :=
          if prev.discoveredBy = .sitemap ∨ (visitItem cfg node key cr).discoveredBy = .both
          then .both else (visitItem cfg node key cr).discoveredBy }
  | none => insertInv inv key (visitItem cfg node key cr)

/-- Continuation of a visit after a successful fetch (`crawl.ts` lines
183-244): count the fetch, record/merge the item, and on successful HTML
record edges and enqueue unseen internal links. -/
def visitRecord (cfg : CrawlConfig) (node : String × Nat) (key : String)
    (cr : ChainResult) (s1 : CrawlState) : CrawlState :=
  let s2 := { s1 with
    fetched := s1.fetched + 1
    inv := visitInv cfg node key cr s1.inv }
  if respOk cr.res ∧ ctIncludesHtml (contentTypeOf cr.res.headers) = true then
    match cr.res.body with
    | none => s2
    | some html =>
      (extractLinks cfg cr.finalUrl html.anchors).foldl
        (linkStep cfg cr.finalUrl node.2) s2
  else s2

/-- Synchronous prefix of one `visit` (`crawl.ts` lines 159-176): the
budget guard, the seen check-and-mark and the parse/internal/extension/
robots checks all run before the first `await`, so every visit of a batch
executes this part before any fetch resolves.  In particular the guard
reads the shared `fetchedCount` as it was when the batch started
(`fetched0`); the accumulator carries the evolving seen set and the list
of nodes (with their keys) whose fetch was dispatched. -/
def visitSync (cfg : CrawlConfig) (fetched0 : Nat)
    (acc : List String × List ((String × Nat) × String)) (node : String × Nat) :
    List String × List ((String × Nat) × String) :=
  if cfg.maxPages ≤ fetched0 then acc
  else if normalizeForKey node.1 ∈ acc.1 then acc
  else
    let seen1 := acc.1 ++ [normalizeForKey node.1]
    match parseUrl node.1.data with
    | none => (seen1, acc.2)
    | some u =>
      if ¬ isInternal cfg.base u cfg.includeSub = true then (seen1, acc.2)
      else if hasIgnoredExtension cfg.ignoredExt u = true then (seen1, acc.2)
      else if cfg.respectRobots ∧ ¬ cfg.isAllowed node.1 = true then (seen1, acc.2)
      else (seen1, acc.2 ++ [(node, normalizeForKey node.1)])

/-- Continuation of one `visit` from its `await fetchWithRedirects` on
(`crawl.ts` lines 177-250): a thrown fetch ends the visit, a resolved one
counts the fetch and records/merges the item and its links. -/
def visitCont (cfg : CrawlConfig) (s : CrawlState)
    (p : (String × Nat) × String) : CrawlState :=
  match fetchWithRedirects cfg.net cfg.resolve p.1.1 cfg.ua with
  | none => s
  | some cr => visitRecord cfg p.1 p.2 cr s

/-- One concurrent batch (`Promise.all(batch.map(visit))`): all
synchronous prefixes run first, in dispatch order, against the batch-start
counter; the fetch continuations then run, each incrementing the counter
it never re-checks against `maxPages`. -/
def visitBatch (cfg : CrawlConfig) (s : CrawlState)
    (batch : List (String × Nat)) : CrawlState :=
  let sync := batch.foldl (visitSync cfg s.fetched) (s.seen, [])
  sync.2.foldl (visitCont cfg) { s with seen := sync.1 }

/-- One iteration of the sitemap pre-registration loop (`crawl.ts` lines
252-272): a placeholder entry with status 0 and depth sentinel 9999, or a
provenance upgrade of an existing entry. -/
def preRegStep (inv : List (String × InventoryItem)) (k : String) :
    List (String × InventoryItem) :=
  match lookupInv inv k with
  | none => insertInv inv k ⟨k, k, k, 0, none, 9999, .sitemap, []⟩
  | some prev => insertInv inv k
      { prev with discoveredBy :=
          if prev.discoveredBy = .html then .both else .sitemap }

/-- Embedding of the sitemap pre-registration loop (`crawl.ts` lines
252-272). -/
def preRegister (cfg : CrawlConfig) (s : CrawlState) : CrawlState :=
  { s with inv := cfg.fromSitemaps.foldl preRegStep s.inv }

/-- Embedding of the batched BFS loop (`crawl.ts` lines 275-278), with
explicit fuel; each iteration splices up to `maxConc` nodes off the queue
and runs them as one concurrent batch. -/
def crawlBFS (cfg : CrawlConfig) : Nat → CrawlState → CrawlState
  | 0, s => s
  | fuel + 1, s =>
    if s.queue ≠ [] ∧ s.fetched < cfg.maxPages then
      crawlBFS cfg fuel
        (visitBatch cfg { s with queue := s.queue.drop cfg.maxConc }
          (s.queue.take cfg.maxConc))
    else s

/-- Inbound-edge target keys (`crawl.ts` lines 281-282), duplicates
included (membership is what matters). -/
def inboundKeys (s : CrawlState) : List String := s.edges.map (fun e => e.toKey)

/-- Post-pass candidates (`crawl.ts` lines 284-287): from-sitemap keys
with an inbound edge and a still-0 status. -/
def postPassCandidates (cfg : CrawlConfig) (s : CrawlState) : List String :=
  cfg.fromSitemaps.filter (fun k =>
    decide (k ∈ inboundKeys s) &&
    (match lookupInv s.inv k with
     | some it => it.status == 0
     | none => false))

/-- One post-pass fetch (`crawl.ts` lines 292-316): on success the
placeholder is updated in place (provenance `both`, depth capped at
`depthMax + 1`); on failure the placeholder is kept. -/
def postPassStep (cfg : CrawlConfig) (s : CrawlState) (k : String) : CrawlState :=
  match fetchWithRedirects cfg.net cfg.resolve k cfg.ua with
  | none => s
  | some cr =>
    match lookupInv s.inv k with
    | none => s
    | some prev =>
      { s with
        inv := insertInv s.inv k
          { prev with
            finalUrl := cr.finalUrl
            status := cr.res.status
            contentType := contentTypeOf cr.res.headers
            depth := min prev.depth (cfg.depthMax + 1)
            discoveredBy := .both
            redirectChain := cr.redirectChain }
        fetched := s.fetched + 1 }

/-- Embedding of the post-pass (`crawl.ts` lines 280-316): fetch up to the
remaining budget `maxPages - fetched` of the candidates. -/
def postPass (cfg : CrawlConfig) (s : CrawlState) : CrawlState :=
  ((postPassCandidates cfg s).take (cfg.maxPages - s.fetched)).foldl
    (postPassStep cfg) s

/-- Initial crawl state from the seed queue. -/
def crawlInit (cfg : CrawlConfig) (queue0 : List (String × Nat)) : CrawlState :=
  preRegister cfg ⟨queue0, [], [], [], 0⟩

/-- Status-family histogram (`crawl.ts` lines 325-335). -/
structure StatusBuckets where
  b0 : Nat
  b2 : Nat
  b3 : Nat
  b4 : Nat
  b5 : Nat
deriving DecidableEq, Repr

/-- Embedding of `CrawlOutput` (`contracts.ts`), stats inlined; the
`sitemap` endpoint list lives outside this model. -/
structure CrawlOutput where
  inventory : List InventoryItem
  edges : List Edge
  pagesFetched : Nat
  pagesFromSitemap : Nat
  pagesFromHtml : Nat
  orphansInSitemap : List String
  linkedNotInSitemap : List String
  statusBuckets : StatusBuckets
deriving DecidableEq, Repr

/-- Embedding of `CrawlInput` (`contracts.ts`). -/
structure CrawlInput where
  startUrl : String
  depth : Option Nat
  maxPages : Option Nat
  includeSubdomains : Option Bool
  userAgent : Option String

/-- Derive the final `CrawlOutput` from the final state (`crawl.ts` lines
318-356). -/
def mkOutput (cfg : CrawlConfig) (s : CrawlState) : CrawlOutput :=
  { inventory := s.inv.map (fun p => p.2)
    edges := s.edges
    pagesFetched := s.fetched
    pagesFromSitemap := cfg.fromSitemaps.length
    pagesFromHtml := ((s.inv.map (fun p => p.2)).filter (fun i =>
      decide (i.discoveredBy = .html) || decide (i.discoveredBy = .both))).length
    orphansInSitemap := cfg.fromSitemaps.filter (fun k => k ∉ inboundKeys s)
    linkedNotInSitemap := (dedupKeep (inboundKeys s)).filter
      (fun k => k ∉ cfg.fromSitemaps)
    statusBuckets := (s.inv.map (fun p => p.2)).foldl (fun acc i =>
      if i.status = 0 then { acc with b0 := acc.b0 + 1 }
      else if 200 ≤ i.status ∧ i.status < 300 then { acc with b2 := acc.b2 + 1 }
      else if 300 ≤ i.status ∧ i.status < 400 then { acc with b3 := acc.b3 + 1 }
      else if 400 ≤ i.status ∧ i.status < 500 then { acc with b4 := acc.b4 + 1 }
      else if 500 ≤ i.status ∧ i.status < 600 then { acc with b5 := acc.b5 + 1 }
      else acc) ⟨0, 0, 0, 0, 0⟩ }

/-- The www/non-www hostname variant used for the extra seed and sitemap
guesses (`crawl.ts` lines 125-129 and 146-150). -/
def wwwVariant (hostname : List Char) : List Char :=
  if hostname.take 4 = "www.".data then hostname.drop 4
  else "www.".data ++ hostname

/-- Seed list of the BFS (`crawl.ts` lines 143-150): the start URL and its
www/non-www counterpart (protocol + variant hostname + pathname). -/
def seedsOf (base : UrlRec) : List (String × Nat) :=
  [(String.mk (serializeUrl base), 0),
   (String.mk (base.scheme ++ ':' :: '/' :: '/' ::
      (wwwVariant (hostnameOf base) ++ pathnameOf base)), 0)]

/-- Effective user agent (`crawl.ts` line 107, with the env default
`DEFAULTS.ua` abstracted to `BROWSER_UA`, its value when
`CRAWLER_USER_AGENT` is unset). -/
def crawlUA (userAgent : Option String) : String :=
  match userAgent with
  | some s => if s.trim = "" then BROWSER_UA else s.trim
  | none => BROWSER_UA

/-- Embedding of `crawlSite` (`crawl.ts` lines 102-357).  `respectRobots`,
`isAllowed`, `maxConc` and `ignoredExt` model the env-driven defaults and
the robots agent; `sitemapRaw` is the URL list collected from the sitemap
endpoints; `fuel` bounds the BFS loop (the run is unchanged once the queue
drains).  An unparsable start URL rejects the run (`new URL` throws). -/
def crawlSite (net : Net) (resolve : Resolver) (respectRobots : Bool)
    (isAllowed : String → Bool) (maxConc : Nat) (ignoredExt : List (List Char))
    (sitemapRaw : List String) (input : CrawlInput) (fuel : Nat) :
    Option CrawlOutput :=
  match parseUrl input.startUrl.data with
  | none => none
  | some base =>
    let cfg : CrawlConfig :=
      ⟨net, resolve, base, input.includeSubdomains.getD false,
        input.depth.getD 2, input.maxPages.getD 500, maxConc,
        respectRobots, isAllowed, ignoredExt, crawlUA input.userAgent,
        dedupKeep (sitemapRaw.map normalizeForKey)⟩
    some (mkOutput cfg (postPass cfg (crawlBFS cfg fuel (crawlInit cfg (seedsOf base)))))

/-- Proof-level predicate: the inventory keys are pairwise distinct. -/
def InvKeysNodup (inv : List (String × InventoryItem)) : Prop :=
  (inv.map (fun p => p.1)).Nodup

/-- Proof-level predicate: each inventory item records its own key as its
`normalizedUrl`. -/
def InvNormEq (inv : List (String × InventoryItem)) : Prop :=
  ∀ p ∈ inv, p.2.normalizedUrl = p.1

/-- Proof-level predicate: every inventory entry is a sitemap placeholder. -/
def AllSitemap (inv : List (String × InventoryItem)) : Prop :=
  ∀ p ∈ inv, p.2.discoveredBy = DiscoveredBy.sitemap

/-- Proof-level predicate: an entry whose provenance involves an HTML visit
has its key in the seen set (a visit marks `seen` before recording). -/
def SeenInv (s : CrawlState) : Prop :=
  ∀ k it, lookupInv s.inv k = some it →
    it.discoveredBy ≠ DiscoveredBy.sitemap → k ∈ s.seen

/-- Whether the inventory entry at key `k` has provenance `both`. -/
def hasBoth (s : CrawlState) (k : String) : Bool :=
  match lookupInv s.inv k with
  | some it => decide (it.discoveredBy = DiscoveredBy.both)
  | none => false

theorem lookupInv_mem {inv : List (String × InventoryItem)} {k : String}
    {it : InventoryItem} (h : lookupInv inv k = some it) : (k, it) ∈ inv := by
  unfold lookupInv at h
  cases hf : inv.find? (fun p => p.1 == k) with
  | none => rw [hf] at h; cases h
  | some p =>
    rw [hf] at h
    injection h with h
    have hmem := List.mem_of_find?_eq_some hf
    have hpred := List.find?_some hf
    simp only [beq_iff_eq] at hpred
    subst h
    rw [← hpred]
    simpa using hmem

theorem find?_isSome_iff_mem (inv : List (String × InventoryItem)) (k : String) :
    (inv.find? (fun p => p.1 == k)).isSome = true ↔ k ∈ inv.map (fun p => p.1) := by
  simp [List.find?_isSome, List.mem_map, beq_iff_eq]

theorem find?_eq_cons (a : String × InventoryItem) (l : List (String × InventoryItem))
    (k : String) :
    List.find? (fun p => p.1 == k) (a :: l) =
      (if (a.1 == k) = true then some a else List.find? (fun p => p.1 == k) l) := by
  by_cases h : (a.1 == k) = true
  · rw [if_pos h]
    exact List.find?_cons_of_pos l h
  · rw [if_neg h]
    exact List.find?_cons_of_neg l h

theorem insertInv_find_self (inv : List (String × InventoryItem)) (k : String)
    (item : InventoryItem) :
    (insertInv inv k item).find? (fun p => p.1 == k) = some (k, item) := by
  unfold insertInv
  by_cases h : (inv.find? (fun p => p.1 == k)).isSome = true
  · rw [if_pos h]
    induction inv with
    | nil => simp [List.find?] at h
    | cons p ps ih =>
      rw [find?_eq_cons] at h
      simp only [List.map]
      by_cases hp : (p.1 == k) = true
      · rw [if_pos hp, find?_eq_cons]
        simp
      · rw [if_neg hp, find?_eq_cons, if_neg hp]
        rw [if_neg hp] at h
        exact ih h
  · rw [if_neg h]
    induction inv with
    | nil =>
      simp only [List.nil_append]
      rw [find?_eq_cons]
      simp [List.find?]
    | cons p ps ih =>
      rw [find?_eq_cons] at h
      by_cases hp : (p.1 == k) = true
      · rw [if_pos hp] at h
        simp at h
      · rw [if_neg hp] at h
        rw [List.cons_append, find?_eq_cons, if_neg hp]
        exact ih h

theorem lookupInv_insert_self (inv : List (String × InventoryItem)) (k : String)
    (item : InventoryItem) : lookupInv (insertInv inv k item) k = some item := by
  unfold lookupInv
  rw [insertInv_find_self]

theorem find?_map_other (ps : List (String × InventoryItem)) (k k2 : String)
    (item : InventoryItem) (h : (k2 == k) = false) :
    List.find? (fun p => p.1 == k2)
        (ps.map (fun p => if (p.1 == k) = true then (k, item) else p)) =
      List.find? (fun p => p.1 == k2) ps := by
  induction ps with
  | nil => rfl
  | cons p ps ih =>
    simp only [List.map]
    by_cases hp : (p.1 == k) = true
    · rw [if_pos hp, find?_eq_cons, find?_eq_cons]
      have hkk2 : (k == k2) = false := by
        rw [beq_eq_false_iff_ne] at h ⊢
        exact fun he => h he.symm
      have hp2 : (p.1 == k2) = false := by
        rw [beq_iff_eq] at hp
        rw [beq_eq_false_iff_ne] at h ⊢
        rw [hp]
        exact fun he => h he.symm
      rw [if_neg (by simp [hkk2]), if_neg (by simp [hp2])]
      exact ih
    · rw [if_neg hp, find?_eq_cons, find?_eq_cons]
      by_cases hp2 : (p.1 == k2) = true
      · rw [if_pos hp2, if_pos hp2]
      · rw [if_neg hp2, if_neg hp2]
        exact ih

theorem find?_append_other (inv : List (String × InventoryItem)) (k k2 : String)
    (item : InventoryItem) (h : (k2 == k) = false) :
    List.find? (fun p => p.1 == k2) (inv ++ [(k, item)]) =
      List.find? (fun p => p.1 == k2) inv := by
  induction inv with
  | nil =>
    simp only [List.nil_append]
    rw [find?_eq_cons, if_neg]
    intro he
    rw [beq_eq_false_iff_ne] at h
    simp only [beq_iff_eq] at he
    exact h he.symm
  | cons p ps ih =>
    rw [List.cons_append, find?_eq_cons, find?_eq_cons]
    by_cases hp2 : (p.1 == k2) = true
    · rw [if_pos hp2, if_pos hp2]
    · rw [if_neg hp2, if_neg hp2]
      exact ih

theorem insertInv_find_other (inv : List (String × InventoryItem)) (k k2 : String)
    (item : InventoryItem) (h : (k2 == k) = false) :
    (insertInv inv k item).find? (fun p => p.1 == k2) =
      inv.find? (fun p => p.1 == k2) := by
  unfold insertInv
  by_cases hf : (inv.find? (fun p => p.1 == k)).isSome = true
  · rw [if_pos hf]
    exact find?_map_other inv k k2 item h
  · rw [if_neg hf]
    exact find?_append_other inv k k2 item h

theorem lookupInv_insert_other (inv : List (String × InventoryItem)) (k k2 : String)
    (item : InventoryItem) (h : k2 ≠ k) :
    lookupInv (insertInv inv k item) k2 = lookupInv inv k2 := by
  unfold lookupInv
  rw [insertInv_find_other inv k k2 item (beq_eq_false_iff_ne.mpr h)]

theorem insertInv_keys (inv : List (String × InventoryItem)) (k : String)
    (item : InventoryItem) :
    (insertInv inv k item).map (fun p => p.1) =
      (if (inv.find? (fun p => p.1 == k)).isSome = true
        then inv.map (fun p => p.1)
        else inv.map (fun p => p.1) ++ [k]) := by
  unfold insertInv
  by_cases h : (inv.find? (fun p => p.1 == k)).isSome = true
  · rw [if_pos h, if_pos h, List.map_map]
    apply List.map_congr_left
    intro p hp
    by_cases hp1 : (p.1 == k) = true
    · simp only [Function.comp, if_pos hp1]
      simp only [beq_iff_eq] at hp1
      exact hp1.symm
    · simp only [Function.comp, if_neg hp1]
  · rw [if_neg h, if_neg h]
    simp

theorem insertInv_nodup {inv : List (String × InventoryItem)} {k : String}
    {item : InventoryItem} (h : (inv.map (fun p => p.1)).Nodup) :
    ((insertInv inv k item).map (fun p => p.1)).Nodup := by
  rw [insertInv_keys]
  by_cases hf : (inv.find? (fun p => p.1 == k)).isSome = true
  · rw [if_pos hf]; exact h
  · rw [if_neg hf]
    refine List.Nodup.append h (List.nodup_singleton k) ?_
    intro x hx hx2
    simp only [List.mem_singleton] at hx2
    subst hx2
    exact hf ((find?_isSome_iff_mem inv x).mpr hx)

theorem mem_insertInv {p : String × InventoryItem}
    {inv : List (String × InventoryItem)} {k : String} {item : InventoryItem}
    (h : p ∈ insertInv inv k item) : p ∈ inv ∨ p = (k, item) := by
  unfold insertInv at h
  by_cases hf : (inv.find? (fun p => p.1 == k)).isSome = true
  · rw [if_pos hf] at h
    obtain ⟨q, hq, he⟩ := List.mem_map.mp h
    by_cases hq1 : (q.1 == k) = true
    · rw [if_pos hq1] at he
      exact Or.inr he.symm
    · rw [if_neg hq1] at he
      exact Or.inl (he ▸ hq)
  · rw [if_neg hf] at h
    rcases List.mem_append.mp h with h | h
    · exact Or.inl h
    · simp only [List.mem_singleton] at h
      exact Or.inr h

theorem linkStep_preserves (cfg : CrawlConfig) (f : String) (d : Nat)
    (st : CrawlState) (t : String) :
    (linkStep cfg f d st t).inv = st.inv ∧
    (linkStep cfg f d st t).seen = st.seen ∧
    (linkStep cfg f d st t).fetched = st.fetched := by
  unfold linkStep
  split
  · exact ⟨rfl, rfl, rfl⟩
  · split
    · exact ⟨rfl, rfl, rfl⟩
    · split
      · exact ⟨rfl, rfl, rfl⟩
      · dsimp only
        split
        · exact ⟨rfl, rfl, rfl⟩
        · exact ⟨rfl, rfl, rfl⟩

theorem foldl_linkStep_preserves (cfg : CrawlConfig) (f : String) (d : Nat)
    (l : List String) (st : CrawlState) :
    (l.foldl (linkStep cfg f d) st).inv = st.inv ∧
    (l.foldl (linkStep cfg f d) st).seen = st.seen ∧
    (l.foldl (linkStep cfg f d) st).fetched = st.fetched := by
  induction l generalizing st with
  | nil => exact ⟨rfl, rfl, rfl⟩
  | cons t ts ih =>
    simp only [List.foldl_cons]
    obtain ⟨h1, h2, h3⟩ := ih (linkStep cfg f d st t)
    obtain ⟨g1, g2, g3⟩ := linkStep_preserves cfg f d st t
    exact ⟨h1.trans g1, h2.trans g2, h3.trans g3⟩

theorem visitInv_nodup {inv : List (String × InventoryItem)} (cfg : CrawlConfig)
    (node : String × Nat) (key : String) (cr : ChainResult)
    (h : InvKeysNodup inv) : InvKeysNodup (visitInv cfg node key cr inv) := by
  unfold visitInv
  split
  · exact insertInv_nodup h
  · exact insertInv_nodup h

theorem visitInv_normEq {inv : List (String × InventoryItem)} (cfg : CrawlConfig)
    (node : String × Nat) (key : String) (cr : ChainResult)
    (h : InvNormEq inv) : InvNormEq (visitInv cfg node key cr inv) := by
  unfold visitInv
  split
  · intro p hp
    rcases mem_insertInv hp with hold | hnew
    · exact h p hold
    · subst hnew; rfl
  · intro p hp
    rcases mem_insertInv hp with hold | hnew
    · exact h p hold
    · subst hnew; rfl

theorem visitInv_lookup_other {inv : List (String × InventoryItem)}
    {key k2 : String} (cfg : CrawlConfig) (node : String × Nat) (cr : ChainResult)
    (h : k2 ≠ key) :
    lookupInv (visitInv cfg node key cr inv) k2 = lookupInv inv k2 := by
  unfold visitInv
  split
  · exact lookupInv_insert_other inv key k2 _ h
  · exact lookupInv_insert_other inv key k2 _ h

theorem visitRecord_fields (cfg : CrawlConfig) (node : String × Nat) (key : String)
    (cr : ChainResult) (s1 : CrawlState) :
    (visitRecord cfg node key cr s1).inv = visitInv cfg node key cr s1.inv ∧
    (visitRecord cfg node key cr s1).seen = s1.seen ∧
    (visitRecord cfg node key cr s1).fetched = s1.fetched + 1 := by
  unfold visitRecord
  split
  · split
    · exact ⟨rfl, rfl, rfl⟩
    · exact foldl_linkStep_preserves cfg cr.finalUrl node.2 _ _
  · exact ⟨rfl, rfl, rfl⟩

theorem visitSync_cases (cfg : CrawlConfig) (f0 : Nat) (seen0 : List String)
    (pend0 : List ((String × Nat) × String)) (node : String × Nat) :
    visitSync cfg f0 (seen0, pend0) node = (seen0, pend0) ∨
    (normalizeForKey node.1 ∉ seen0 ∧
      (visitSync cfg f0 (seen0, pend0) node =
          (seen0 ++ [normalizeForKey node.1], pend0) ∨
       visitSync cfg f0 (seen0, pend0) node =
          (seen0 ++ [normalizeForKey node.1],
            pend0 ++ [(node, normalizeForKey node.1)]))) := by
  unfold visitSync
  split
  · exact Or.inl rfl
  · split
    · exact Or.inl rfl
    · rename_i hseen
      refine Or.inr ⟨hseen, ?_⟩
      split
      · exact Or.inl rfl
      · split
        · exact Or.inl rfl
        · split
          · exact Or.inl rfl
          · split
            · exact Or.inl rfl
            · exact Or.inr rfl

theorem visitSync_foldl_guard (cfg : CrawlConfig) {f0 : Nat}
    (h : cfg.maxPages ≤ f0) (nodes : List (String × Nat))
    (acc : List String × List ((String × Nat) × String)) :
    nodes.foldl (visitSync cfg f0) acc = acc := by
  induction nodes generalizing acc with
  | nil => rfl
  | cons n ns ih =>
    simp only [List.foldl_cons]
    have hstep : visitSync cfg f0 acc n = acc := by
      unfold visitSync
      rw [if_pos h]
    rw [hstep]
    exact ih acc

theorem visitSync_foldl_spec (cfg : CrawlConfig) (f0 : Nat)
    (nodes : List (String × Nat)) (seen0 : List String)
    (pend0 : List ((String × Nat) × String)) :
    ∃ ext np,
      nodes.foldl (visitSync cfg f0) (seen0, pend0) = (seen0 ++ ext, pend0 ++ np) ∧
      (∀ q ∈ np, q.2 ∉ seen0 ∧ q.2 ∈ seen0 ++ ext) ∧
      (np.map (fun q => q.2)).Nodup ∧
      np.length ≤ nodes.length := by
  induction nodes generalizing seen0 pend0 with
  | nil =>
    exact ⟨[], [], by simp, by simp, List.nodup_nil, Nat.le_refl 0⟩
  | cons n ns ih =>
    simp only [List.foldl_cons, List.length_cons]
    rcases visitSync_cases cfg f0 seen0 pend0 n with hv | ⟨hkey, hv | hv⟩
    · rw [hv]
      obtain ⟨ext, np, heq, hmem, hnd, hlen⟩ := ih seen0 pend0
      exact ⟨ext, np, heq, hmem, hnd, Nat.le_succ_of_le hlen⟩
    · rw [hv]
      obtain ⟨ext, np, heq, hmem, hnd, hlen⟩ :=
        ih (seen0 ++ [normalizeForKey n.1]) pend0
      refine ⟨normalizeForKey n.1 :: ext, np, ?_, ?_, hnd, Nat.le_succ_of_le hlen⟩
      · rw [heq, List.append_assoc]
        rfl
      · intro q hq
        obtain ⟨hq1, hq2⟩ := hmem q hq
        refine ⟨fun hc => hq1 (List.mem_append_left _ hc), ?_⟩
        rw [List.append_assoc] at hq2
        exact hq2
    · rw [hv]
      obtain ⟨ext, np, heq, hmem, hnd, hlen⟩ :=
        ih (seen0 ++ [normalizeForKey n.1]) (pend0 ++ [(n, normalizeForKey n.1)])
      refine ⟨normalizeForKey n.1 :: ext, (n, normalizeForKey n.1) :: np, ?_, ?_, ?_, ?_⟩
      · rw [heq, List.append_assoc, List.append_assoc]
        rfl
      · intro q hq
        rcases List.mem_cons.mp hq with rfl | hq
        · exact ⟨hkey, List.mem_append_right _ (List.mem_cons_self _ _)⟩
        · obtain ⟨hq1, hq2⟩ := hmem q hq
          refine ⟨fun hc => hq1 (List.mem_append_left _ hc), ?_⟩
          rw [List.append_assoc] at hq2
          exact hq2
      · simp only [List.map_cons]
        refine List.nodup_cons.mpr ⟨?_, hnd⟩
        intro hc
        obtain ⟨q, hq, hq2⟩ := List.mem_map.mp hc
        exact (hmem q hq).1 (hq2 ▸ List.mem_append_right _ (List.mem_cons_self _ _))
      · simpa using Nat.succ_le_succ hlen

theorem visitCont_cases (cfg : CrawlConfig) (s : CrawlState)
    (p : (String × Nat) × String) :
    visitCont cfg s p = s ∨
    ∃ cr, visitCont cfg s p = visitRecord cfg p.1 p.2 cr s := by
  unfold visitCont
  split
  · exact Or.inl rfl
  · exact Or.inr ⟨_, rfl⟩

theorem visitCont_foldl_main (cfg : CrawlConfig) (s0 : CrawlState)
    (pend : List ((String × Nat) × String)) :
    ∀ st : CrawlState,
      (∀ q ∈ pend, q.2 ∈ st.seen) →
      ((pend.map (fun q => q.2)).Nodup) →
      (∀ q ∈ pend, lookupInv st.inv q.2 = lookupInv s0.inv q.2) →
      (∀ q ∈ pend, q.2 ∉ s0.seen) →
      ((pend.foldl (visitCont cfg) st).fetched ≤ st.fetched + pend.length ∧
       (pend.foldl (visitCont cfg) st).seen = st.seen ∧
       (InvKeysNodup st.inv → InvKeysNodup (pend.foldl (visitCont cfg) st).inv) ∧
       (InvNormEq st.inv → InvNormEq (pend.foldl (visitCont cfg) st).inv) ∧
       (SeenInv st → SeenInv (pend.foldl (visitCont cfg) st)) ∧
       (∀ k, SeenInv s0 → hasBoth st k = true →
          hasBoth (pend.foldl (visitCont cfg) st) k = true)) := by
  induction pend with
  | nil =>
    intro st _ _ _ _
    exact ⟨Nat.le_add_right _ 0, rfl, fun h => h, fun h => h, fun h => h,
      fun _ _ h => h⟩
  | cons q qs ih =>
    intro st hseen hnd hfresh hnot
    simp only [List.foldl_cons, List.length_cons]
    have hndt : (qs.map (fun q => q.2)).Nodup := (List.nodup_cons.mp hnd).2
    have hhead : q.2 ∉ qs.map (fun q => q.2) := (List.nodup_cons.mp hnd).1
    rcases visitCont_cases cfg st q with hv | ⟨cr, hv⟩
    · rw [hv]
      obtain ⟨i1, i2, i3, i4, i5, i6⟩ := ih st
        (fun q2 h2 => hseen q2 (List.mem_cons_of_mem q h2)) hndt
        (fun q2 h2 => hfresh q2 (List.mem_cons_of_mem q h2))
        (fun q2 h2 => hnot q2 (List.mem_cons_of_mem q h2))
      exact ⟨le_trans i1 (by omega), i2, i3, i4, i5, i6⟩
    · rw [hv]
      obtain ⟨hIn, hSe, hFe⟩ := visitRecord_fields cfg q.1 q.2 cr st
      have hseen2 : ∀ q2 ∈ qs, q2.2 ∈ (visitRecord cfg q.1 q.2 cr st).seen := by
        intro q2 h2
        rw [hSe]
        exact hseen q2 (List.mem_cons_of_mem q h2)
      have hfresh2 : ∀ q2 ∈ qs,
          lookupInv (visitRecord cfg q.1 q.2 cr st).inv q2.2 =
            lookupInv s0.inv q2.2 := by
        intro q2 h2
        rw [hIn]
        have hne : q2.2 ≠ q.2 := by
          intro hc
          exact hhead (hc ▸ List.mem_map.mpr ⟨q2, h2, rfl⟩)
        rw [visitInv_lookup_other cfg q.1 cr hne]
        exact hfresh q2 (List.mem_cons_of_mem q h2)
      obtain ⟨i1, i2, i3, i4, i5, i6⟩ := ih (visitRecord cfg q.1 q.2 cr st)
        hseen2 hndt hfresh2 (fun q2 h2 => hnot q2 (List.mem_cons_of_mem q h2))
      refine ⟨?_, i2.trans hSe, ?_, ?_, ?_, ?_⟩
      · rw [hFe] at i1
        omega
      · intro h
        apply i3
        rw [hIn]
        exact visitInv_nodup cfg q.1 q.2 cr h
      · intro h
        apply i4
        rw [hIn]
        exact visitInv_normEq cfg q.1 q.2 cr h
      · intro h
        apply i5
        intro k it hl hd
        rw [hSe]
        rw [hIn] at hl
        by_cases hk : k = q.2
        · subst hk
          exact hseen q (List.mem_cons_self q qs)
        · rw [visitInv_lookup_other cfg q.1 cr hk] at hl
          exact h k it hl hd
      · intro k hs0 hb
        apply i6 k hs0
        unfold hasBoth at hb ⊢
        by_cases hk : k = q.2
        · cases hbl : lookupInv st.inv k with
          | none => rw [hbl] at hb; cases hb
          | some it =>
            rw [hbl] at hb
            exfalso
            rw [hk, hfresh q (List.mem_cons_self q qs)] at hbl
            apply hnot q (List.mem_cons_self q qs)
            apply hs0 q.2 it hbl
            have hboth : it.discoveredBy = DiscoveredBy.both :=
              of_decide_eq_true hb
            simp [hboth]
        · rw [hIn, visitInv_lookup_other cfg q.1 cr hk]
          exact hb

theorem visitBatch_guard (cfg : CrawlConfig) (s : CrawlState)
    (batch : List (String × Nat)) (h : cfg.maxPages ≤ s.fetched) :
    visitBatch cfg s batch = s := by
  unfold visitBatch
  rw [visitSync_foldl_guard cfg h]
  rfl

theorem visitBatch_main (cfg : CrawlConfig) (s : CrawlState)
    (batch : List (String × Nat)) :
    ((visitBatch cfg s batch).fetched ≤ s.fetched + batch.length ∧
     (InvKeysNodup s.inv → InvKeysNodup (visitBatch cfg s batch).inv) ∧
     (InvNormEq s.inv → InvNormEq (visitBatch cfg s batch).inv) ∧
     (SeenInv s → SeenInv (visitBatch cfg s batch)) ∧
     (∀ k, SeenInv s → hasBoth s k = true →
        hasBoth (visitBatch cfg s batch) k = true)) := by
  unfold visitBatch
  obtain ⟨ext, np, heq, hmem, hnd, hlen⟩ :=
    visitSync_foldl_spec cfg s.fetched batch s.seen []
  rw [heq]
  simp only [List.nil_append]
  obtain ⟨i1, i2, i3, i4, i5, i6⟩ := visitCont_foldl_main cfg s np
    { s with seen := s.seen ++ ext }
    (fun q hq => (hmem q hq).2) hnd (fun q hq => rfl)
    (fun q hq => (hmem q hq).1)
  have i1x : (np.foldl (visitCont cfg) { s with seen := s.seen ++ ext }).fetched ≤
      s.fetched + np.length := i1
  refine ⟨by omega, i3, i4, ?_, ?_⟩
  · intro h
    apply i5
    intro k it hl hd
    exact List.mem_append_left _ (h k it hl hd)
  · intro k hs hb
    exact i6 k hs hb

theorem crawlBFS_main (cfg : CrawlConfig) (fuel : Nat) (s : CrawlState) :
    (((crawlBFS cfg fuel s).fetched ≤
        max s.fetched (cfg.maxPages - 1 + cfg.maxConc)) ∧
     (InvKeysNodup s.inv → InvKeysNodup (crawlBFS cfg fuel s).inv) ∧
     (InvNormEq s.inv → InvNormEq (crawlBFS cfg fuel s).inv) ∧
     (SeenInv s → SeenInv (crawlBFS cfg fuel s)) ∧
     (∀ k, SeenInv s → hasBoth s k = true →
        hasBoth (crawlBFS cfg fuel s) k = true)) := by
  induction fuel generalizing s with
  | zero =>
    exact ⟨Nat.le_max_left _ _, fun h => h, fun h => h, fun h => h,
      fun _ _ h => h⟩
  | succ fuel ih =>
    simp only [crawlBFS]
    split
    · rename_i hcond
      obtain ⟨f1, f2, f3, f4, f5⟩ := visitBatch_main cfg
        { s with queue := s.queue.drop cfg.maxConc } (s.queue.take cfg.maxConc)
      obtain ⟨g1, g2, g3, g4, g5⟩ := ih (visitBatch cfg
        { s with queue := s.queue.drop cfg.maxConc } (s.queue.take cfg.maxConc))
      refine ⟨?_, fun h => g2 (f2 h), fun h => g3 (f3 h),
        fun h => g4 (f4 h),
        fun k hs hb => g5 k (f4 hs) (f5 k hs hb)⟩
      have hbl : (s.queue.take cfg.maxConc).length ≤ cfg.maxConc :=
        List.length_take_le _ _
      have hlt : s.fetched < cfg.maxPages := hcond.2
      have hf1 : (visitBatch cfg { s with queue := s.queue.drop cfg.maxConc }
          (s.queue.take cfg.maxConc)).fetched ≤
          s.fetched + (s.queue.take cfg.maxConc).length := f1
      omega
    · exact ⟨Nat.le_max_left _ _, fun h => h, fun h => h, fun h => h,
      fun _ _ h => h⟩

theorem preRegStep_props (inv : List (String × InventoryItem)) (k : String) :
    ((InvKeysNodup inv → InvKeysNodup (preRegStep inv k)) ∧
     (InvNormEq inv → InvNormEq (preRegStep inv k)) ∧
     (AllSitemap inv → AllSitemap (preRegStep inv k))) := by
  unfold preRegStep
  split
  · refine ⟨fun h => insertInv_nodup h, fun h p hp => ?_, fun h p hp => ?_⟩
    · rcases mem_insertInv hp with hold | hnew
      · exact h p hold
      · subst hnew; rfl
    · rcases mem_insertInv hp with hold | hnew
      · exact h p hold
      · subst hnew; rfl
  · rename_i prev heq
    refine ⟨fun h => insertInv_nodup h, fun h p hp => ?_, fun h p hp => ?_⟩
    · rcases mem_insertInv hp with hold | hnew
      · exact h p hold
      · subst hnew
        exact h (k, prev) (lookupInv_mem heq)
    · rcases mem_insertInv hp with hold | hnew
      · exact h p hold
      · subst hnew
        have hprev : prev.discoveredBy = DiscoveredBy.sitemap :=
          h (k, prev) (lookupInv_mem heq)
        show (if prev.discoveredBy = DiscoveredBy.html then DiscoveredBy.both
          else DiscoveredBy.sitemap) = DiscoveredBy.sitemap
        rw [if_neg (by simp [hprev])]

theorem foldl_preRegStep_props (l : List String)
    (inv : List (String × InventoryItem)) :
    ((InvKeysNodup inv → InvKeysNodup (l.foldl preRegStep inv)) ∧
     (InvNormEq inv → InvNormEq (l.foldl preRegStep inv)) ∧
     (AllSitemap inv → AllSitemap (l.foldl preRegStep inv))) := by
  induction l generalizing inv with
  | nil => exact ⟨fun h => h, fun h => h, fun h => h⟩
  | cons x xs ih =>
    simp only [List.foldl_cons]
    obtain ⟨i1, i2, i3⟩ := ih (preRegStep inv x)
    obtain ⟨p1, p2, p3⟩ := preRegStep_props inv x
    exact ⟨fun h => i1 (p1 h), fun h => i2 (p2 h), fun h => i3 (p3 h)⟩

theorem crawlInit_props (cfg : CrawlConfig) (q : List (String × Nat)) :
    InvKeysNodup (crawlInit cfg q).inv ∧ InvNormEq (crawlInit cfg q).inv ∧
    AllSitemap (crawlInit cfg q).inv ∧ (crawlInit cfg q).fetched = 0 ∧
    SeenInv (crawlInit cfg q) := by
  obtain ⟨p1, p2, p3⟩ :=
    foldl_preRegStep_props cfg.fromSitemaps ([] : List (String × InventoryItem))
  have hn : InvKeysNodup ([] : List (String × InventoryItem)) := List.nodup_nil
  have hq : InvNormEq ([] : List (String × InventoryItem)) :=
    fun p hp => absurd hp (List.not_mem_nil p)
  have ha : AllSitemap ([] : List (String × InventoryItem)) :=
    fun p hp => absurd hp (List.not_mem_nil p)
  refine ⟨p1 hn, p2 hq, p3 ha, rfl, ?_⟩
  intro k it hl hd
  exact absurd ((p3 ha) (k, it) (lookupInv_mem hl)) hd

theorem postPassStep_props (cfg : CrawlConfig) (s : CrawlState) (k : String) :
    ((postPassStep cfg s k).fetched ≤ s.fetched + 1 ∧
     (InvKeysNodup s.inv → InvKeysNodup (postPassStep cfg s k).inv) ∧
     (InvNormEq s.inv → InvNormEq (postPassStep cfg s k).inv) ∧
     (∀ k2, hasBoth s k2 = true → hasBoth (postPassStep cfg s k) k2 = true)) := by
  unfold postPassStep
  split
  · exact ⟨Nat.le_succ _, fun h => h, fun h => h, fun _ h => h⟩
  · split
    · exact ⟨Nat.le_succ _, fun h => h, fun h => h, fun _ h => h⟩
    · rename_i cr hcr prev heq
      refine ⟨Nat.le_refl _, fun h => insertInv_nodup h, fun h p hp => ?_,
        fun k2 hb => ?_⟩
      · rcases mem_insertInv hp with hold | hnew
        · exact h p hold
        · subst hnew
          exact h (k, prev) (lookupInv_mem heq)
      · by_cases hk : k2 = k
        · subst hk
          unfold hasBoth
          simp [lookupInv_insert_self]
        · unfold hasBoth at hb ⊢
          simp only [lookupInv_insert_other _ _ _ _ hk]
          exact hb

theorem foldl_postPassStep_props (cfg : CrawlConfig) (l : List String)
    (s : CrawlState) :
    ((l.foldl (postPassStep cfg) s).fetched ≤ s.fetched + l.length ∧
     (InvKeysNodup s.inv → InvKeysNodup (l.foldl (postPassStep cfg) s).inv) ∧
     (InvNormEq s.inv → InvNormEq (l.foldl (postPassStep cfg) s).inv) ∧
     (∀ k2, hasBoth s k2 = true →
        hasBoth (l.foldl (postPassStep cfg) s) k2 = true)) := by
  induction l generalizing s with
  | nil => exact ⟨Nat.le_add_right _ 0, fun h => h, fun h => h, fun _ h => h⟩
  | cons x xs ih =>
    simp only [List.foldl_cons, List.length_cons]
    obtain ⟨i1, i2, i3, i4⟩ := ih (postPassStep cfg s x)
    obtain ⟨p1, p2, p3, p4⟩ := postPassStep_props cfg s x
    refine ⟨?_, fun h => i2 (p2 h), fun h => i3 (p3 h),
      fun k2 hb => i4 k2 (p4 k2 hb)⟩
    calc (xs.foldl (postPassStep cfg) (postPassStep cfg s x)).fetched
        ≤ (postPassStep cfg s x).fetched + xs.length := i1
      _ ≤ s.fetched + 1 + xs.length := Nat.add_le_add_right p1 _
      _ = s.fetched + (xs.length + 1) := by omega

theorem postPass_main (cfg : CrawlConfig) (s : CrawlState) :
    ((postPass cfg s).fetched ≤ s.fetched + (cfg.maxPages - s.fetched) ∧
     (InvKeysNodup s.inv → InvKeysNodup (postPass cfg s).inv) ∧
     (InvNormEq s.inv → InvNormEq (postPass cfg s).inv) ∧
     (∀ k2, hasBoth s k2 = true → hasBoth (postPass cfg s) k2 = true)) := by
  unfold postPass
  obtain ⟨p1, p2, p3, p4⟩ := foldl_postPassStep_props cfg
    ((postPassCandidates cfg s).take (cfg.maxPages - s.fetched)) s
  refine ⟨?_, p2, p3, p4⟩
  refine le_trans p1 ?_
  have := List.length_take_le (cfg.maxPages - s.fetched) (postPassCandidates cfg s)
  omega

theorem crawl_run_fetched_le (cfg : CrawlConfig) (q : List (String × Nat))
    (fuel : Nat) (hmc : 1 ≤ cfg.maxConc) :
    (postPass cfg (crawlBFS cfg fuel (crawlInit cfg q))).fetched ≤
      cfg.maxPages - 1 + cfg.maxConc := by
  have h0 : (crawlInit cfg q).fetched = 0 := (crawlInit_props cfg q).2.2.2.1
  have h1 := (crawlBFS_main cfg fuel (crawlInit cfg q)).1
  rw [h0] at h1
  have h2 := (postPass_main cfg (crawlBFS cfg fuel (crawlInit cfg q))).1
  omega

theorem crawl_run_inv_props (cfg : CrawlConfig) (q : List (String × Nat))
    (fuel : Nat) :
    InvKeysNodup (postPass cfg (crawlBFS cfg fuel (crawlInit cfg q))).inv ∧
    InvNormEq (postPass cfg (crawlBFS cfg fuel (crawlInit cfg q))).inv := by
  obtain ⟨c1, c2, c3, c4, c5⟩ := crawlInit_props cfg q
  obtain ⟨b1, b2, b3, b4, b5⟩ := crawlBFS_main cfg fuel (crawlInit cfg q)
  obtain ⟨p1, p2, p3, p4⟩ := postPass_main cfg (crawlBFS cfg fuel (crawlInit cfg q))
  exact ⟨p2 (b2 c1), p3 (b3 c2)⟩

theorem mkOutput_inventory_nodup {cfg : CrawlConfig} {s : CrawlState}
    (h1 : InvKeysNodup s.inv) (h2 : InvNormEq s.inv) :
    ((mkOutput cfg s).inventory.map (fun i => i.normalizedUrl)).Nodup := by
  show ((s.inv.map (fun p => p.2)).map (fun i => i.normalizedUrl)).Nodup
  rw [List.map_map]
  have he : s.inv.map ((fun i => i.normalizedUrl) ∘ (fun p => p.2)) =
      s.inv.map (fun p => p.1) :=
    List.map_congr_left (fun p hp => h2 p hp)
  rw [he]
  exact h1

/-- Network used by the concrete crawl-run witnesses: every URL answers
200 with an HTML body holding no links. -/
def wNet : Net := fun _ _ =>
  some ⟨200, [("content-type", "text/html")], some ⟨[], [], [], []⟩⟩

/-- Resolver used by the concrete crawl-run witnesses. -/
def wResolve : Resolver := fun _ _ => none

/-- Input of the concrete crawl-run witnesses. -/
def wInput : CrawlInput := ⟨"http://a.com/", none, none, none, none⟩

/-- Parsed base URL of the witness run. -/
def wBase : UrlRec := (parseUrl ("http://a.com/".data)).getD ⟨[], [], [], [], none⟩

/-- Configuration of the witness run (matches the one `crawlSite` builds
from `wInput`, with the start URL also listed in the sitemap). -/
def wCfg : CrawlConfig :=
  ⟨wNet, wResolve, wBase, false, 2, 500, 2, false, fun _ => true, [],
    crawlUA none, dedupKeep (["http://a.com/"].map normalizeForKey)⟩

/-- State of the witness run after the BFS phase. -/
def wState : CrawlState := crawlBFS wCfg 2 (crawlInit wCfg (seedsOf wBase))

/-- Output of the witness run. -/
def wOut : CrawlOutput :=
  (crawlSite wNet wResolve false (fun _ => true) 2 [] ["http://a.com/"] wInput
      2).getD ⟨[], [], 0, 0, 0, [], [], ⟨0, 0, 0, 0, 0⟩⟩

/-- Input of the C1 counterexample run: `maxPages = 1` with subdomains
included, so both seeds are internal. -/
def cInput : CrawlInput := ⟨"http://a.com/", none, some 1, some true, none⟩

/-- Output of the C1 counterexample run. -/
def cOut : CrawlOutput :=
  (crawlSite wNet wResolve false (fun _ => true) 6 [] [] cInput 2).getD
    ⟨[], [], 0, 0, 0, [], [], ⟨0, 0, 0, 0, 0⟩⟩

/-- C1 counterexample: the fetch total can exceed `maxPages`.  The budget
guard and the counter increment are separated by the awaited fetch, so all
visits of one concurrent batch pass the guard against the same stale
counter: with `maxPages = 1` and subdomains included, both seeds (the
start URL and its `www` variant) fetch in the first batch and
`pagesFetched = 2 > 1`. -/
theorem C1_counterexample :
    crawlSite wNet wResolve false (fun _ => true) 6 [] [] cInput 2 = some cOut ∧
    cInput.maxPages.getD 500 = 1 ∧ cOut.pagesFetched = 2 ∧
    ¬ cOut.pagesFetched ≤ cInput.maxPages.getD 500 := by decide

/-- C1 (amended): one concurrent batch can overshoot the budget by at most
its own size, so a crawl run with `maxConcurrency ≥ 1` performs at most
`maxPages - 1 + maxConcurrency` fetches in total (each BFS iteration runs
only when `fetched < maxPages` and adds at most `maxConcurrency` fetches;
sitemap placeholders never enter the counter); and the post-pass — whose
candidate list is sliced to the remaining room before any of its fetches
run — performs at most `maxPages - fetched` further fetches. -/
theorem C1_max_pages_budget_amended :
    ((∀ net resolve respectRobots isAllowed maxConc ignoredExt sitemapRaw input
        fuel out,
        crawlSite net resolve respectRobots isAllowed maxConc ignoredExt
            sitemapRaw input fuel = some out →
        1 ≤ maxConc →
        out.pagesFetched ≤ input.maxPages.getD 500 - 1 + maxConc) ∧
     (∀ cfg s, (postPass cfg s).fetched ≤ s.fetched + (cfg.maxPages - s.fetched))) := by
  constructor
  · intro net resolve rr ia mc ie sm input fuel out h hmc
    unfold crawlSite at h
    cases hp : parseUrl input.startUrl.data with
    | none =>
      simp only [hp] at h
      exact Option.noConfusion h
    | some base =>
      simp only [hp] at h
      injection h with h
      subst h
      exact crawl_run_fetched_le _ (seedsOf base) fuel hmc
  · intro cfg s
    exact (postPass_main cfg s).1

theorem C1_witness :
    crawlSite wNet wResolve false (fun _ => true) 2 [] ["http://a.com/"] wInput 2
        = some wOut ∧
    (1 : Nat) ≤ 2 ∧
    wOut.pagesFetched ≤ wInput.maxPages.getD 500 - 1 + 2 :=
  ⟨by decide, by decide,
   C1_max_pages_budget_amended.1 wNet wResolve false (fun _ => true) 2 []
     ["http://a.com/"] wInput 2 wOut (by decide) (by decide)⟩

/-- C4: a finished crawl run's inventory holds exactly one item per
normalized key (the keys, which each item's `normalizedUrl` equals, are
pairwise distinct), and provenance is monotone along the run: an entry
with provenance `both` still has provenance `both` after any further BFS
iterations and after the post-pass (the visit merge can only see a
`sitemap` predecessor for an unseen key, and the post-pass only writes
`both`). -/
theorem C4_unique_keys_and_provenance_monotone :
    ((∀ net resolve respectRobots isAllowed maxConc ignoredExt sitemapRaw input
        fuel out,
        crawlSite net resolve respectRobots isAllowed maxConc ignoredExt
            sitemapRaw input fuel = some out →
        (out.inventory.map (fun i => i.normalizedUrl)).Nodup) ∧
     (∀ cfg queue0 fuel1 fuel2 k,
        hasBoth (crawlBFS cfg fuel1 (crawlInit cfg queue0)) k = true →
        hasBoth (crawlBFS cfg fuel2 (crawlBFS cfg fuel1 (crawlInit cfg queue0)))
            k = true) ∧
     (∀ cfg s k, hasBoth s k = true → hasBoth (postPass cfg s) k = true)) := by
  refine ⟨?_, ?_, ?_⟩
  · intro net resolve rr ia mc ie sm input fuel out h
    unfold crawlSite at h
    cases hp : parseUrl input.startUrl.data with
    | none =>
      simp only [hp] at h
      exact Option.noConfusion h
    | some base =>
      simp only [hp] at h
      injection h with h
      subst h
      exact mkOutput_inventory_nodup (crawl_run_inv_props _ (seedsOf base) fuel).1
        (crawl_run_inv_props _ (seedsOf base) fuel).2
  · intro cfg queue0 fuel1 fuel2 k hb
    have hseen : SeenInv (crawlBFS cfg fuel1 (crawlInit cfg queue0)) :=
      (crawlBFS_main cfg fuel1 _).2.2.2.1 (crawlInit_props cfg queue0).2.2.2.2
    exact (crawlBFS_main cfg fuel2 _).2.2.2.2 k hseen hb
  · intro cfg s k hb
    exact (postPass_main cfg s).2.2.2 k hb

theorem C4_witness :
    ((wOut.inventory.map (fun i => i.normalizedUrl)).Nodup ∧
     hasBoth (crawlBFS wCfg 1 (crawlBFS wCfg 2 (crawlInit wCfg (seedsOf wBase))))
         (normalizeForKey "http://a.com/") = true ∧
     hasBoth (postPass wCfg wState) (normalizeForKey "http://a.com/") = true) :=
  ⟨C4_unique_keys_and_provenance_monotone.1 wNet wResolve false (fun _ => true) 2
     [] ["http://a.com/"] wInput 2 wOut (by decide),
   C4_unique_keys_and_provenance_monotone.2.1 wCfg (seedsOf wBase) 2 1
     (normalizeForKey "http://a.com/") (by decide),
   C4_unique_keys_and_provenance_monotone.2.2 wCfg wState
     (normalizeForKey "http://a.com/") (by decide)⟩

end MCrawl
